import Mathlib

/-!
Shallow embedding of the core logic of the qcom-build-utils repository:

* `src/scripts/deb_abi_checker.py` — the ABI compatibility verdict engine
  (version parsing, semantic-version policy, exit-status classification,
  per-package and per-repository aggregation);
* `src/ubuntu/build_deb.py` — the dependency-graph builder, Kahn topological
  sort / cycle detection, and the build drivers.

Pure functions of the Python source are translated into Lean functions;
code paths that raise exceptions are modelled with `Except`; the external
world (directory listings, tool exit codes, tool output) is passed in as
explicit data.
-/

namespace QBU

/-! ## String helpers mirroring the Python primitives used by the source -/

/-- Python `str.split(sep)` for a one-character separator: splits at every
occurrence, keeping empty pieces (`"a..b".split('.') = ["a","","b"]`). -/
def splitOnChar (c : Char) : List Char → List (List Char)
  | [] => [[]]
  | x :: xs =>
    if x = c then [] :: splitOnChar c xs
    else
      match splitOnChar c xs with
      | [] => [[x]]
      | p :: ps => (x :: p) :: ps

/-- Fuel-driven worker for `splitOnSeq`; the fuel (an upper bound on the
text length) only forces structural recursion and is never exhausted. -/
def splitOnSeqF (sep : List Char) : Nat → List Char → List (List Char)
  | _, [] => [[]]
  | 0, cs => [cs]
  | fuel + 1, c :: cs =>
    if sep ≠ [] ∧ sep.isPrefixOf (c :: cs) then
      [] :: splitOnSeqF sep fuel ((c :: cs).drop sep.length)
    else
      match splitOnSeqF sep fuel cs with
      | [] => [[c]]
      | p :: ps => (c :: p) :: ps

/-- Python `str.split(sep)` for a multi-character separator (the code uses
`", "`): leftmost, non-overlapping splits, keeping empty pieces. -/
def splitOnSeq (sep cs : List Char) : List (List Char) :=
  splitOnSeqF sep cs.length cs

/-- Numeric value of a digit string. -/
def digitsToNat (cs : List Char) : Nat :=
  cs.foldl (fun n c => n * 10 + (c.toNat - 48)) 0

/-- Python `int(s)` restricted to the digit strings the checker feeds it:
succeeds exactly on a nonempty all-digit string (otherwise `ValueError`). -/
def strToNat? (cs : List Char) : Option Nat :=
  if cs ≠ [] ∧ cs.all (·.isDigit) then some (digitsToNat cs) else none

/-- Python `\s` class (`[ \t\n\r\f\v]`), also used by `str.strip()`. -/
def isPySpace (c : Char) : Bool :=
  c = ' ' || c = '\t' || c = '\n' || c = '\r' || c = '\x0b' || c = '\x0c'

/-- Python `str.strip()`. -/
def pyStrip (cs : List Char) : List Char :=
  ((cs.dropWhile isPySpace).reverse.dropWhile isPySpace).reverse

/-- `s.startswith(p)`, on the underlying character lists. -/
def strStarts (s p : String) : Bool := p.data.isPrefixOf s.data

/-- `s.endswith(p)`. -/
def strEnds (s p : String) : Bool := p.data.isSuffixOf s.data

/-- Substring occurrence test on character lists. -/
def listInfix (p : List Char) : List Char → Bool
  | [] => p.isEmpty
  | c :: cs => p.isPrefixOf (c :: cs) || listInfix p cs

/-- Python `p in s` substring test. -/
def strContains (s p : String) : Bool := listInfix p.data s.data

/-- `os.path.splitext(f)[0]`: everything before the last dot; the whole
name when there is no dot or when everything before the last dot is
dots (Python does not split a leading-dots-only name). -/
def splitextRoot (cs : List Char) : List Char :=
  let r := cs.reverse.span (· ≠ '.')
  match r.2 with
  | [] => cs
  | _ :: root_rev => if root_rev.all (· = '.') then cs else root_rev.reverse

/-! ## `deb_abi_checker.py`: version extraction and validation -/

/-- The regex match `^(\d+\.\d+\.\d+)` of `extract_upstream_version`:
returns the matched prefix and the unmatched remainder.  The `\d+` pieces
are greedy, which for this pattern is plain maximal munch. -/
def matchUpstream (cs : List Char) : Option (List Char × List Char) :=
  let s1 := cs.span (·.isDigit)
  if s1.1 = [] then none
  else
    match s1.2 with
    | '.' :: r2 =>
      let s2 := r2.span (·.isDigit)
      if s2.1 = [] then none
      else
        match s2.2 with
        | '.' :: r4 =>
          let s3 := r4.span (·.isDigit)
          if s3.1 = [] then none
          else some (s1.1 ++ '.' :: s2.1 ++ '.' :: s3.1, s3.2)
        | _ => none
    | _ => none

/-- `extract_upstream_version` (deb_abi_checker.py:702-704): keep the
leading `major.minor.patch` prefix when the regex matches, otherwise
return the string unchanged. -/
def extract_upstream_version (v : String) : String :=
  match matchUpstream v.data with
  | some p => String.mk p.1
  | none => v

/-- Full-anchor regex `^\d+\.\d+\.\d+(-\d+)?$` used as `version_pattern`
in `analyze_abi_diff_result`. -/
def isValidVersion (v : String) : Bool :=
  match matchUpstream v.data with
  | none => false
  | some p =>
    match p.2 with
    | [] => true
    | '-' :: ds => !ds.isEmpty && ds.all (·.isDigit)
    | _ => false

/-- `version_bumped` (deb_abi_checker.py:665-699).  Raising paths
(`ValueError` on a bad index or a non-integer part, `IndexError` on a
short version) are modelled with `Except.error`. -/
def version_bumped (old_version new_version index : String) :
    Except String Bool :=
  if index ≠ "major" ∧ index ≠ "minor" ∧ index ≠ "patch" then
    .error "Index must be one of major, minor, or patch"
  else
    let o := (splitOnChar '-' old_version.data).headD []
    let n := (splitOnChar '-' new_version.data).headD []
    match (splitOnChar '.' o).mapM strToNat?,
          (splitOnChar '.' n).mapM strToNat? with
    | some op, some np =>
      let i : Nat := if index = "major" then 0 else if index = "minor" then 1 else 2
      match op[i]?, np[i]? with
      | some a, some b => .ok (decide (b > a))
      | _, _ => .error "IndexError: list index out of range"
    | _, _ => .error "ValueError: invalid literal for int"

/-- `analyze_abi_diff_result` (deb_abi_checker.py:707-821): validate both
versions, assert on ill-formed diff bits, then produce the PASS/FAIL
verdict string from the semantic-version policy. -/
def analyze_abi_diff_result (old_version new_version : String)
    (abidiff_result : Nat) : Except String String :=
  let old_v := extract_upstream_version old_version
  let new_v := extract_upstream_version new_version
  if ¬ isValidVersion old_v then
    .error "Invalid old version. Expected a string in the format major.minor.patch"
  else if ¬ isValidVersion new_v then
    .error "Invalid new version. Expected a string in the format major.minor.patch"
  else if abidiff_result &&& 0b0011 ≠ 0 then
    .error "ASSERT : this scenario should have already been dealt with"
  else
    let abi_change : Bool := abidiff_result &&& 0b0100 ≠ 0
    let incompatible_abi_change : Bool := abidiff_result &&& 0b1000 ≠ 0
    if incompatible_abi_change && !abi_change then
      .error "ASSERT : impossible scenario, if incompatible is set, change has to be set too"
    else do
      let major_bumped ← version_bumped old_v new_v "major"
      let minor_bumped ← version_bumped old_v new_v "minor"
      let patch_bumped ← version_bumped old_v new_v "patch"
      pure (if incompatible_abi_change then
              if major_bumped then "PASS : Major version increased"
              else if minor_bumped then "FAIL : Minor version increased, needed major increase"
              else if patch_bumped then "FAIL : Patch version increased, needed major increase"
              else "FAIL : No version increase"
            else if abi_change then
              if major_bumped then "PASS : Major version increased"
              else if minor_bumped then "PASS : Minor version increased"
              else if patch_bumped then "FAIL : Patch version increased, needed minor increase"
              else "FAIL : No version increase"
            else
              if major_bumped then "PASS : Major version increased"
              else if minor_bumped then "PASS : Minor version increased"
              else if patch_bumped then "PASS : Patch version increased"
              else "PASS : No version increase")

/-- Numeric `(major, minor, patch)` reading of a version string, through
the same upstream extraction the code performs; `none` when the code
would reject the string. -/
def versionTriple (v : String) : Option (Nat × Nat × Nat) :=
  let u := extract_upstream_version v
  if isValidVersion u then
    match (splitOnChar '.' ((splitOnChar '-' u.data).headD [])).mapM strToNat? with
    | some [a, b, c] => some (a, b, c)
    | _ => none
  else none

/-- The upstream-version extraction as the C8 claim words it: strip
everything from the first `-`, `+` or `~` on. -/
def stripAtSuffixSeps (v : String) : String :=
  String.mk (v.data.takeWhile (fun ch => ch != '-' && ch != '+' && ch != '~'))

/-! ## `deb_abi_checker.py`: exit-status classification and escalation -/

/-- Match a literal at the head of the text. -/
def matchLit (lit cs : List Char) : Option (List Char) :=
  if lit.isPrefixOf cs then some (cs.drop lit.length) else none

/-- Match `\s+` at the head of the text. -/
def matchWs1 (cs : List Char) : Option (List Char) :=
  let s := cs.span isPySpace
  if s.1 = [] then none else some s.2

/-- Match `(\d+)` at the head of the text, returning its value. -/
def matchDigits1 (cs : List Char) : Option (Nat × List Char) :=
  let s := cs.span (·.isDigit)
  if s.1 = [] then none else some (digitsToNat s.1, s.2)

/-- Match the regex
`Functions changes summary:\s+(\d+)\s+Removed,\s+(\d+)\s+Changed,`
anchored at the current position, returning the two captured counts. -/
def matchSummaryAt (cs : List Char) : Option (Nat × Nat) := do
  let r1 ← matchLit "Functions changes summary:".data cs
  let r2 ← matchWs1 r1
  let p1 ← matchDigits1 r2
  let r4 ← matchWs1 p1.2
  let r5 ← matchLit "Removed,".data r4
  let r6 ← matchWs1 r5
  let p2 ← matchDigits1 r6
  let r8 ← matchWs1 p2.2
  let _ ← matchLit "Changed,".data r8
  pure (p1.1, p2.1)

/-- `re.search` of the summary pattern: first position, left to right. -/
def searchSummary : List Char → Option (Nat × Nat)
  | [] => matchSummaryAt []
  | c :: cs =>
    match matchSummaryAt (c :: cs) with
    | some r => some r
    | none => searchSummary cs

/-- Documented per-package outcomes (deb_abi_checker.py:44-49). -/
def RETURN_ABI_NO_DIFF : Int := 0

def RETURN_ABI_COMPATIBLE_DIFF : Int := 1

def RETURN_ABI_INCOMPATIBLE_DIFF : Int := 2

def RETURN_ABI_STRIPPED_PACKAGE : Int := 4

def RETURN_PPA_PACKAGE_NOT_FOUND : Int := 8

def RETURN_PPA_ERROR : Int := 16

/-- Outcome of the bit-analysis block of `single_package_abi_checker`
(deb_abi_checker.py:517-576): the recorded classification string, the
numeric return value, and — when `analyze_abi_diff_result` is
subsequently reached — the (possibly escalated) value it is passed. -/
structure ClassifyResult where
  diff_result : Option String
  return_value : Int
  analyze_arg : Option Nat
  deriving DecidableEq, Repr

/-- The classification block of `single_package_abi_checker`: bit 0 is a
tool error (raised), bit 1 a stripped package (returned immediately),
bit 2 a compatible difference (possibly escalated by re-scanning the
textual report for a positive `Changed` count), bit 3 an incompatible
difference. -/
def classify_abi_result (abidiff_result : Nat) (output : String) :
    Except String ClassifyResult :=
  if abidiff_result ≠ 0 then
    if abidiff_result &&& 0b0001 ≠ 0 then
      .error "abipkgdiff encountered an error"
    else if abidiff_result &&& 0b0010 ≠ 0 then
      .ok ⟨some "STRIPPED-PACKAGE", RETURN_ABI_STRIPPED_PACKAGE, none⟩
    else
      let bit3 : Bool := abidiff_result &&& 0b0100 ≠ 0
      let bit4 : Bool := abidiff_result &&& 0b1000 ≠ 0
      let s1 : Option String × Int × Nat :=
        if bit3 then
          match searchSummary output.data with
          | some counts =>
            if counts.2 > 0 then
              (some "INCOMPATIBLE-DIFF", RETURN_ABI_INCOMPATIBLE_DIFF, abidiff_result ||| 0b1000)
            else
              (some "COMPATIBLE-DIFF", RETURN_ABI_COMPATIBLE_DIFF, abidiff_result)
          | none => (some "COMPATIBLE-DIFF", RETURN_ABI_COMPATIBLE_DIFF, abidiff_result)
        else (none, 0, abidiff_result)
      let s2 : Option String × Int × Nat :=
        if bit4 then (some "INCOMPATIBLE-DIFF", RETURN_ABI_INCOMPATIBLE_DIFF, s1.2.2) else s1
      .ok ⟨s2.1, s2.2.1, some s2.2.2⟩
  else
    .ok ⟨some "NO-DIFF", RETURN_ABI_NO_DIFF, some abidiff_result⟩

/-! ## `deb_abi_checker.py`: per-package and per-repository drivers

The external world of one `single_package_abi_checker` run — what
`os.listdir` returns after the three `apt-get download` attempts, whether
the apt steps succeeded, and the diff tool's exit status and captured
report — is an explicit environment. -/

structure PkgEnv where
  apt_update_ok : Bool
  apt_download_core_ok : Bool
  old_download_files : List String
  abidiff_result : Nat
  abidiff_output : String

/-- `name_version_arch` filename: the field after the first `_` of the
extension-stripped name (Python raises `IndexError` when missing). -/
def versionFieldOf (f : String) : Option String :=
  ((splitOnChar '_' (splitextRoot f.data))[1]?).map String.mk

/-- The field before the first `_` of the extension-stripped name. -/
def pkgNameOf (f : String) : String :=
  String.mk ((splitOnChar '_' (splitextRoot f.data)).headD [])

/-- The tail of `single_package_abi_checker` (deb_abi_checker.py:397-604)
once both auxiliary-package selections have succeeded: fetch the old
package (apt update / download failures return 16 / 8), read its
version, classify the diff-tool outcome and run the version policy. -/
def abiCoreOutcome (env : PkgEnv) (new_version : String) : Except String Int :=
  if !env.apt_update_ok then .ok RETURN_PPA_ERROR
  else if !env.apt_download_core_ok then .ok RETURN_PPA_PACKAGE_NOT_FOUND
  else
    match env.old_download_files.find? (fun f =>
        strEnds f ".deb" && !strContains f "-dev") with
    | none => .error "No .deb file found that does not contain -dev in the name"
    | some old_deb_file =>
      match versionFieldOf old_deb_file with
      | none => .error "IndexError: list index out of range"
      | some old_version =>
        match classify_abi_result env.abidiff_result env.abidiff_output with
        | .error e => .error e
        | .ok cls =>
          match cls.analyze_arg with
          | none => .ok cls.return_value
          | some arg =>
            match analyze_abi_diff_result old_version new_version arg with
            | .error e => .error e
            | .ok _ => .ok cls.return_value

/-- Tail of `single_package_abi_checker` after the `-dev` selection: the
`-dbgsym` selection (Python returns `False`, numerically 0, on an
ambiguity) followed by the core comparison. -/
def afterDevOutcome (env : PkgEnv) (new_version : String)
    (deb_ddeb_files : List String) : Except String Int :=
  match deb_ddeb_files with
  | [] => abiCoreOutcome env new_version
  | [_] => abiCoreOutcome env new_version
  | _ => .ok 0

/-- `single_package_abi_checker` (deb_abi_checker.py:315-604), as a
function of its environment; only the control flow that decides the
per-package numeric outcome is kept (record bookkeeping and shelling out
carry no return-relevant state).  `Except.error` models a raised
exception. -/
def single_package_abi_checker (files : List String) (env : PkgEnv)
    (package_name package_file : String) : Except String Int :=
  match versionFieldOf package_file with
  | none => .error "IndexError: list index out of range"
  | some new_version =>
    match package_name.data.getLast? with
    | none => .error "IndexError: string index out of range"
    | some last =>
      let pnwm : String :=
        if last.isDigit then String.mk (package_name.data.dropLast) else package_name
      let deb_dev_files := files.filter (fun f =>
        strEnds f ".deb" && strContains f pnwm && strContains f "-dev")
      let deb_ddeb_files := files.filter (fun f =>
        strEnds f ".ddeb" && strContains f (package_name ++ "-dbgsym"))
      match deb_dev_files with
      | [] => afterDevOutcome env new_version deb_ddeb_files
      | [_] => afterDevOutcome env new_version deb_ddeb_files
      | _ =>
        -- `if len(narrowed) > 1: return -1` then `narrowed[0]`, case by case:
        -- two or more candidates return -1, none is an IndexError, one proceeds
        match deb_dev_files.filter (fun f => strContains f (pnwm ++ "-dev")) with
        | [] => .error "IndexError: list index out of range"
        | [_] => afterDevOutcome env new_version deb_ddeb_files
        | _ => .ok (-1)

/-- Environment of one `single_repo_deb_abi_checker` run: the repository
output directory's listing and, per core `.deb` file found there, the
environment of its package-level run. -/
structure RepoEnv where
  files : List String
  pkg_env : String → PkgEnv

/-- The core `.deb` files of a repository output directory
(deb_abi_checker.py:280): `.deb` extension, no `-dev`, no `-dbgsym`. -/
def coreDebFiles (files : List String) : List String :=
  files.filter (fun f =>
    strEnds f ".deb" && !strContains f "-dev" && !strContains f "-dbgsym")

/-- The per-package loop of `single_repo_deb_abi_checker`: accumulates
the bitwise OR of per-package outcomes and records the package names for
which an `ABI_DIFF_Result` entry is created. -/
def singleRepoLoop (env : RepoEnv) :
    List String → Int → List String → Except String (Int × List String)
  | [], acc, recs => .ok (acc, recs)
  | deb_file :: rest, acc, recs =>
    let package_name := pkgNameOf deb_file
    let recs' := recs ++ [package_name]
    match single_package_abi_checker env.files (env.pkg_env deb_file)
        package_name deb_file with
    | .error e => .error e
    | .ok ret => singleRepoLoop env rest (Int.lor acc ret) recs'

/-- `single_repo_deb_abi_checker` (deb_abi_checker.py:213-313): returns
the aggregate outcome and the list of package names for which a result
record was created in `global_checker_results`. -/
def single_repo_deb_abi_checker (env : RepoEnv) :
    Except String (Int × List String) :=
  let deb_files := coreDebFiles env.files
  if deb_files.isEmpty then .ok (RETURN_ABI_NO_DIFF, [])
  else singleRepoLoop env deb_files 0 []

/-- `multiple_repo_deb_abi_checker` (deb_abi_checker.py:164-211): OR of
the per-repository aggregates; an exception makes the process exit
(modelled as `Except.error`). -/
def multiple_repo_deb_abi_checker : List RepoEnv → Int → Except String Int
  | [], acc => .ok acc
  | env :: rest, acc =>
    match single_repo_deb_abi_checker env with
    | .error e => .error e
    | .ok r => multiple_repo_deb_abi_checker rest (Int.lor acc r.1)

/-! ## `build_deb.py`: descriptors and the dependency graph -/

/-- One loaded package descriptor (build_deb.py:129-136): its unique key
(the `debian` directory path), the binary package names it produces and
its declared build dependencies.  The Python sets are modelled as lists;
set iteration order in Python is unspecified, a list fixes one. -/
structure Desc where
  key : String
  packages : List String
  dependencies : List String

/-- The graph state of `detect_cycle`: dict insertion order is the
`verts` list; `adj` and `deg` are the `graph` and `in_degree` values
(with `[]` / `0` for never-inserted keys, which the code never reads). -/
structure GState where
  verts : List String
  adj : String → List String
  deg : String → Int

/-- First loop of `detect_cycle` (build_deb.py:204-207): register a
produced binary with `in_degree 0` and an empty adjacency (dict
assignment overwrites). -/
def addVert (s : GState) (b : String) : GState :=
  { verts := if b ∈ s.verts then s.verts else s.verts ++ [b]
    adj := fun u => if u = b then [] else s.adj u
    deg := fun v => if v = b then 0 else s.deg v }

/-- Second loop of `detect_cycle` (build_deb.py:209-216): ensure the
dependency is a vertex (its fresh `in_degree 0` / `graph []` entries
coincide with the model's defaults), then append the edge
dependency → dependent and bump the dependent's in-degree. -/
def addEdge (s : GState) (dep bin : String) : GState :=
  { verts := if dep ∈ s.verts then s.verts else s.verts ++ [dep]
    adj := fun u => if u = dep then s.adj dep ++ [bin] else s.adj u
    deg := fun v => if v = bin then s.deg bin + 1 else s.deg v }

/-- Both graph-building loops of `detect_cycle`. -/
def buildGraph (descs : List Desc) : GState :=
  let s1 := descs.foldl (fun s d => d.packages.foldl addVert s)
    ⟨[], fun _ => [], fun _ => 0⟩
  descs.foldl (fun s d =>
    d.packages.foldl (fun s b =>
      d.dependencies.foldl (fun s dep => addEdge s dep b) s) s) s1

/-- State of the Kahn BFS loop. -/
structure KState where
  queue : List String
  order : List String
  deg : String → Int

/-- Inner `for dependent in graph[pkg]` loop (build_deb.py:228-231):
decrement each dependent, enqueueing it when it reaches zero. -/
def processTargets (adj : String → List String) (u : String) (st : KState) : KState :=
  (adj u).foldl (fun s v =>
    let d := s.deg v - 1
    { queue := if d = 0 then s.queue ++ [v] else s.queue
      order := s.order
      deg := fun w => if w = v then d else s.deg w }) st

/-- The `while queue` loop of `detect_cycle` (build_deb.py:225-231),
with explicit fuel; the callers supply fuel that provably outlasts the
queue. -/
def kahnLoop (adj : String → List String) : Nat → KState → KState
  | 0, st => st
  | fuel + 1, st =>
    match st.queue with
    | [] => st
    | u :: q =>
      kahnLoop adj fuel (processTargets adj u ⟨q, st.order ++ [u], st.deg⟩)

/-- Total number of (multi-)edges the descriptors induce. -/
def numEdges (descs : List Desc) : Nat :=
  (descs.map (fun d => d.packages.length * d.dependencies.length)).sum

/-- `min(in_degree, key=in_degree.get)` over a nonempty key list: the
first key attaining the minimum value. -/
def minKey (deg : String → Int) (v : String) (vs : List String) : String :=
  vs.foldl (fun best w => if deg w < deg best then w else best) v

/-- Initialisation of the Kahn queue (build_deb.py:218-223): all
zero-in-degree vertices in discovery order; when there are none, the
single vertex of minimum in-degree is forced in (`none` when `min` would
raise on an empty dict). -/
def kahnInitQueue (g : GState) : Option (List String) :=
  let q0 := g.verts.filter (fun v => decide (g.deg v = 0))
  if q0.isEmpty then
    match g.verts with
    | [] => none
    | v :: vs => some [minKey g.deg v vs]
  else some q0

/-- The state after the whole Kahn BFS of `detect_cycle`. -/
def kahnFinal (descs : List Desc) : Option KState :=
  let g := buildGraph descs
  (kahnInitQueue g).map (fun q =>
    kahnLoop g.adj (g.verts.length + numEdges descs + 1) ⟨q, [], g.deg⟩)

/-- `detect_cycle` (build_deb.py:190-252).  `.ok (some order)` is a
returned sorted order, `.ok none` is the cycle-detected `return None`,
`.error` is the `ValueError` Python's `min` raises on an empty dict. -/
def detect_cycle (descs : List Desc) : Except String (Option (List String)) :=
  if descs.isEmpty then .ok (some [])
  else
    match kahnFinal descs with
    | none => .error "ValueError: min() arg is an empty sequence"
    | some final =>
      if ((buildGraph descs).verts.filter (fun v => decide (0 < final.deg v))).isEmpty then
        .ok (some final.order)
      else .ok none

/-- The `for package in self.packages` scan of `build_all_packages`
(build_deb.py:404-410), driven over the sorted order: builds the first
unvisited descriptor producing each name; a build failure (the external
build command failing, `env key = false`) propagates immediately.
Returns the keys built (in order) and the propagated error, if any. -/
def buildAllLoop (env : String → Bool) (descs : List Desc) :
    List String → List String → List String → List String × Option String
  | [], _, built => (built, none)
  | pkg :: rest, visited, built =>
    match descs.find? (fun d => !(visited.contains d.key) && d.packages.contains pkg) with
    | none => buildAllLoop env descs rest visited built
    | some d =>
      if env d.key then
        buildAllLoop env descs rest (visited ++ [d.key]) (built ++ [d.key])
      else (built, some ("PackageBuildError: " ++ d.key))

/-- `build_all_packages` (build_deb.py:401-410): compute the order, then
drive the builds.  When `detect_cycle` returns `None`, Python's
`for pkg in sorted_order` raises a `TypeError` before any build. -/
def build_all_packages (env : String → Bool) (descs : List Desc) :
    List String × Option String :=
  match detect_cycle descs with
  | .error e => ([], some e)
  | .ok none => ([], some "TypeError: NoneType object is not iterable")
  | .ok (some order) => buildAllLoop env descs order [] []

/-! ## `build_deb.py`: targeted build with dependencies -/

/-- Errors of the targeted build: `PackageNotFoundError` and
`PackageBuildError` (build_deb.py:26-36); a Python `RecursionError`
would propagate like a build failure and is folded into the latter. -/
inductive BuildErr where
  | notFound (msg : String)
  | buildFail (msg : String)
  deriving DecidableEq, Repr

/-- Set the `visited` flag of the descriptor with the given key. -/
def markVisited (st : List (Desc × Bool)) (k : String) : List (Desc × Bool) :=
  st.map (fun p => if p.1.key = k then (p.1, true) else p)

/-- The `for dep in dependencies` loop of `build_specific_package`
(build_deb.py:432-445): flag the descriptor visited, recurse on the
dependency, swallow `PackageNotFoundError` (its raiser mutated nothing),
propagate `PackageBuildError`. -/
def depsLoop (bsp : List (Desc × Bool) → String → Except BuildErr (List (Desc × Bool)))
    (dkey : String) : List String → List (Desc × Bool) →
    Except BuildErr (List (Desc × Bool))
  | [], st => .ok st
  | dep :: rest, st =>
    let st1 := markVisited st dkey
    match bsp st1 dep with
    | .ok st2 => depsLoop bsp dkey rest st2
    | .error (BuildErr.notFound _) => depsLoop bsp dkey rest st1
    | .error e => .error e

/-- `build_specific_package` (build_deb.py:412-452): scan for the first
unvisited descriptor producing the requested name, build its declared
dependencies first, then build it (`env key` is the external build
command's success); raise `PackageNotFoundError` when the scan finds
nothing. -/
def build_specific_package (env : String → Bool) :
    Nat → List (Desc × Bool) → String → Except BuildErr (List (Desc × Bool))
  | 0, _, _ => .error (.buildFail "maximum recursion depth exceeded")
  | fuel + 1, st, package_name =>
    match st.find? (fun p => !p.2 && p.1.packages.contains package_name) with
    | none => .error (.notFound ("Package " ++ package_name ++ " not found."))
    | some p =>
      match depsLoop (build_specific_package env fuel) p.1.key p.1.dependencies st with
      | .ok st2 =>
        if env p.1.key then .ok st2
        else .error (.buildFail ("Failed to build " ++ p.1.key))
      | .error e => .error e

/-- Recursion depth is bounded by the descriptor count, so this fuel is
never exhausted on the states the drivers produce. -/
def build_specific_package_top (env : String → Bool) (st : List (Desc × Bool))
    (package_name : String) : Except BuildErr (List (Desc × Bool)) :=
  build_specific_package env (st.length + 1) st package_name

/-! ## `build_deb.py`: control-file parsing -/

/-- `line_strip.split(':', 1)[1]`: the part after the first colon. -/
def afterColon (cs : List Char) : Option (List Char) :=
  match (cs.span (· ≠ ':')).2 with
  | _ :: rest => some rest
  | [] => none

/-- `line.startswith((" ", "\t"))`. -/
def isIndentedLine (l : String) : Bool :=
  match l.data with
  | c :: _ => c = ' ' || c = '\t'
  | [] => false

/-- Accumulator of the control-file loop (build_deb.py:157-178). -/
structure CtrlState where
  packages : List String
  found_build_depends : Bool
  build_depends_lines : List String

/-- Append if absent: the model of `set.add` with a fixed order. -/
def addUnique (l : List String) (x : String) : List String :=
  if x ∈ l then l else l ++ [x]

/-- One iteration of the `for line in f` loop of
`get_packages_from_control`. -/
def ctrlStep (st : CtrlState) (line : String) : CtrlState :=
  let line_strip := pyStrip line.data
  if strStarts line "Package:" then
    { st with packages :=
        addUnique st.packages (String.mk (pyStrip ((afterColon line_strip).getD []))) }
  else if strStarts line "Build-Depends:" && !st.found_build_depends then
    let v := pyStrip ((afterColon line_strip).getD [])
    { st with found_build_depends := true
              build_depends_lines :=
                if v ≠ [] then st.build_depends_lines ++ [String.mk v]
                else st.build_depends_lines }
  else if st.found_build_depends && isIndentedLine line then
    if line_strip ≠ [] then
      { st with build_depends_lines := st.build_depends_lines ++ [String.mk line_strip] }
    else st
  else if st.found_build_depends && !isIndentedLine line then
    { st with found_build_depends := false }
  else st

/-- `" ".join(lines)`. -/
def joinSpace (lines : List String) : List Char :=
  (List.intersperse " " lines).foldr (fun s acc => s.data ++ acc) []

/-- `dep.split()[0]`: first whitespace-delimited token, `none` (Python
`IndexError`) on a blank entry. -/
def firstToken (cs : List Char) : Option (List Char) :=
  let t := cs.dropWhile isPySpace
  if t = [] then none else some (t.takeWhile (fun c => !isPySpace c))

/-- Order-fixing model of building a Python set from a list. -/
def dedupFirst (l : List String) : List String :=
  l.foldl addUnique []

/-- `get_packages_from_control` (build_deb.py:138-188) on the lines of an
existing control file.  `.error` covers both the `IndexError` on a blank
dependency entry and the `exit(1)` on a control file declaring no
packages. -/
def get_packages_from_control (lines : List String) :
    Except String (List String × List String) :=
  let st := lines.foldl ctrlStep ⟨[], false, []⟩
  let deps : Option (List String) :=
    if st.build_depends_lines ≠ [] then
      ((splitOnSeq ", ".data (joinSpace st.build_depends_lines)).mapM
        firstToken).map (fun ts => dedupFirst (ts.map String.mk))
    else some []
  match deps with
  | none => .error "IndexError: list index out of range"
  | some ds =>
    if st.packages.length = 0 then .error "exit(1): invalid control file"
    else .ok (st.packages, ds)

/-- The dependency block as the C6 claim words it: the first
Build-Depends value plus its indented/tab-indented continuation lines up
to the first non-indented line (blank continuation lines dropped). -/
def claimBlock (lines : List String) : List String :=
  match lines.dropWhile (fun l => !strStarts l "Build-Depends:") with
  | [] => []
  | bd :: post =>
    let value := pyStrip ((afterColon (pyStrip bd.data)).getD [])
    let cont := (post.takeWhile isIndentedLine).map (fun l => pyStrip l.data)
    (if value ≠ [] then [String.mk value] else []) ++
      (cont.filter (· ≠ [])).map String.mk

/-- The dependency set as the C6 claim words it: first
whitespace-delimited token of each comma-separated entry of the block,
duplicates removed. -/
def claimDeps (lines : List String) : Option (List String) :=
  let block := claimBlock lines
  if block = [] then some []
  else
    ((splitOnChar ',' (joinSpace block)).mapM firstToken).map
      (fun ts => dedupFirst (ts.map String.mk))

/-- The dependency set with the separator the code actually uses: the
two-character sequence comma-space. -/
def claimDepsCS (lines : List String) : Option (List String) :=
  let block := claimBlock lines
  if block = [] then some []
  else
    ((splitOnSeq ", ".data (joinSpace block)).mapM firstToken).map
      (fun ts => dedupFirst (ts.map String.mk))

/-! ## Specification-level view of the dependency graph (for C2) -/

/-- One edge occurrence (dependency, dependent) per (descriptor, produced
package, declared dependency) triple, in the order the second
graph-building loop of `detect_cycle` adds them. -/
def edgeList (descs : List Desc) : List (String × String) :=
  descs.bind (fun d => d.packages.bind (fun b =>
    d.dependencies.map (fun dep => (dep, b))))

/-- A vertex of the induced dependency graph: a produced binary name or a
declared dependency name. -/
def VertOf (descs : List Desc) (v : String) : Prop :=
  ∃ d ∈ descs, v ∈ d.packages ∨ v ∈ d.dependencies

/-- The induced edge relation: one edge from each declared dependency to
each package the declaring descriptor produces. -/
def EdgeOf (descs : List Desc) (u v : String) : Prop :=
  ∃ d ∈ descs, u ∈ d.dependencies ∧ v ∈ d.packages

/-- Acyclicity of the induced dependency graph: no nonempty edge path
returns to its start. -/
def AcyclicDeps (descs : List Desc) : Prop :=
  ∀ v, ¬ Relation.TransGen (EdgeOf descs) v v

/-- Invariant of the second graph-building loop, relative to the phase-1
vertex list `V0` and the edge occurrences `EL` added so far. -/
structure Phase2Inv (V0 : List String) (EL : List (String × String)) (s : GState) : Prop where
  nodup : s.verts.Nodup
  sub : ∀ v ∈ V0, v ∈ s.verts
  vert_iff : ∀ v, v ∈ s.verts ↔ (v ∈ V0 ∨ ∃ p ∈ EL, p.1 = v)
  adj_count : ∀ u w, (s.adj u).count w = EL.count (u, w)
  deg_eq : ∀ v, s.deg v = ((s.verts.map (fun u => (s.adj u).count v)).sum : Int)
  not_vert : ∀ u, u ∉ s.verts → s.adj u = [] ∧ s.deg u = 0
  len_sum : (s.verts.map (fun u => (s.adj u).length)).sum = EL.length

/-- What `buildGraph` guarantees about the graph it hands to the BFS. -/
structure GraphOK (descs : List Desc) (g : GState) : Prop where
  nodup : g.verts.Nodup
  vert_iff : ∀ v, v ∈ g.verts ↔
    ((∃ d ∈ descs, v ∈ d.packages) ∨ ∃ p ∈ edgeList descs, p.1 = v)
  adj_count : ∀ u w, (g.adj u).count w = (edgeList descs).count (u, w)
  deg_eq : ∀ v, g.deg v = ((g.verts.map (fun u => (g.adj u).count v)).sum : Int)
  not_vert : ∀ u, u ∉ g.verts → g.adj u = [] ∧ g.deg u = 0
  len_sum : (g.verts.map (fun u => (g.adj u).length)).sum = (edgeList descs).length

/-- Invariant of the Kahn BFS loop over the fixed graph `(adj, verts)`. -/
structure KahnOK (adj : String → List String) (verts : List String) (st : KState) : Prop where
  nodup : (st.order ++ st.queue).Nodup
  mem_vert : ∀ v ∈ st.order ++ st.queue, v ∈ verts
  deg_acc : ∀ v ∈ verts, st.deg v =
    ((verts.map (fun u => (adj u).count v)).sum : Int) -
    ((st.order.map (fun u => (adj u).count v)).sum : Int)
  queue_zero : ∀ v ∈ st.queue, st.deg v = 0
  zero_seen : ∀ v ∈ verts, st.deg v = 0 → v ∈ st.order ++ st.queue
  order_zero : ∀ v ∈ st.order, st.deg v = 0
  order_closed : ∀ v ∈ st.order, ∀ w ∈ verts, w ∉ st.order → (adj w).count v = 0
  order_pos : ∀ v ∈ st.order, ∀ u, v ∈ adj u →
    u ∈ st.order ∧ st.order.indexOf u < st.order.indexOf v

/-- Invariant of the inner decrement fold while the suffix `r` of the
popped vertex's adjacency list is still unprocessed. -/
structure StepInv (adj : String → List String) (verts : List String)
    (order1 : List String) (r : List String) (t : KState) : Prop where
  ord : t.order = order1
  nodup : (order1 ++ t.queue).Nodup
  mem_vert : ∀ v ∈ order1 ++ t.queue, v ∈ verts
  deg_acc : ∀ v ∈ verts, t.deg v =
    ((verts.map (fun u => (adj u).count v)).sum : Int) -
    ((order1.map (fun u => (adj u).count v)).sum : Int) + (r.count v : Int)
  queue_zero : ∀ v ∈ t.queue, t.deg v = 0 ∧ r.count v = 0
  zero_seen : ∀ v ∈ verts, t.deg v = 0 → r.count v = 0 → v ∈ order1 ++ t.queue
  order_zero : ∀ v ∈ order1, t.deg v = 0 ∧ r.count v = 0
  order_closed : ∀ v ∈ order1, ∀ w ∈ verts, w ∉ order1 → (adj w).count v = 0
  order_pos : ∀ v ∈ order1, ∀ u, v ∈ adj u →
    u ∈ order1 ∧ order1.indexOf u < order1.indexOf v

/-- Termination measure of the BFS: queue length plus clamped degrees. -/
def kahnMeasure (verts : List String) (st : KState) : Nat :=
  st.queue.length + (verts.map (fun v => (st.deg v).toNat)).sum

/-! ## Supporting lemmas -/

lemma versionTriple_inv {v : String} {a b c : Nat}
    (h : versionTriple v = some (a, b, c)) :
    isValidVersion (extract_upstream_version v) = true ∧
    (splitOnChar '.' ((splitOnChar '-' (extract_upstream_version v).data).headD [])).mapM strToNat?
      = some [a, b, c] := by
  unfold versionTriple at h
  by_cases hv : isValidVersion (extract_upstream_version v) = true
  · refine ⟨hv, ?_⟩
    simp only [hv, if_true] at h
    split at h
    · next a0 b0 c0 heq =>
      simp only [Option.some.injEq, Prod.mk.injEq] at h
      obtain ⟨rfl, rfl, rfl⟩ := h
      exact heq
    · exact absurd h (by simp)
  · simp [hv] at h

lemma version_bumped_eval {ov nv : String} {a b c a' b' c' : Nat}
    (ho : (splitOnChar '.' ((splitOnChar '-' ov.data).headD [])).mapM strToNat? = some [a, b, c])
    (hn : (splitOnChar '.' ((splitOnChar '-' nv.data).headD [])).mapM strToNat? = some [a', b', c']) :
    version_bumped ov nv "major" = .ok (decide (a < a')) ∧
    version_bumped ov nv "minor" = .ok (decide (b < b')) ∧
    version_bumped ov nv "patch" = .ok (decide (c < c')) := by
  unfold version_bumped
  refine ⟨?_, ?_, ?_⟩ <;>
  · rw [if_neg (by simp)]
    simp only [ho, hn]
    rfl

/-! ## C1: the semantic-versioning PASS/FAIL policy -/

/-- C1: for version strings parsing as major.minor.patch and a fixed
classification (encoded in bits 2 and 3 of the diff result, bits 0-1
clear, incompatible implying compatible), `analyze_abi_diff_result`
returns a verdict starting with PASS exactly when semver discipline
allows it — incompatible: major strictly increased; compatible: major or
minor strictly increased; no change: always — and every other verdict
starts with FAIL. -/
theorem analyze_abi_diff_result_semver_policy (old_version new_version : String)
    (r a b c a' b' c' : Nat)
    (hov : versionTriple old_version = some (a, b, c))
    (hnv : versionTriple new_version = some (a', b', c'))
    (hlow : r &&& 0b0011 = 0)
    (hcons : r &&& 0b1000 ≠ 0 → r &&& 0b0100 ≠ 0) :
    ∃ v, analyze_abi_diff_result old_version new_version r = .ok v ∧
      (strStarts v "PASS" = true ↔
        (if r &&& 0b1000 ≠ 0 then a < a'
         else if r &&& 0b0100 ≠ 0 then a < a' ∨ b < b'
         else True)) ∧
      (strStarts v "PASS" = true ∨ strStarts v "FAIL" = true) := by
  obtain ⟨hva, hoa⟩ := versionTriple_inv hov
  obtain ⟨hvb, hob⟩ := versionTriple_inv hnv
  obtain ⟨hma, hmi, hpa⟩ := version_bumped_eval hoa hob
  unfold analyze_abi_diff_result
  rw [if_neg (by simp [hva]), if_neg (by simp [hvb]), if_neg (by simp [hlow])]
  by_cases h8 : r &&& 0b1000 = 0 <;> by_cases h4 : r &&& 0b0100 = 0
  · rw [if_neg (by simp [h8])]
    simp only [hma, hmi, hpa]
    refine ⟨_, rfl, ?_, ?_⟩ <;>
    · simp only [ne_eq, h8, h4, not_true_eq_false, if_false, iff_true]
      by_cases hA : a < a' <;> by_cases hB : b < b' <;> by_cases hC : c < c' <;>
        simp only [hA, hB, hC, decide_eq_true_eq, if_true, if_false] <;> decide
  · rw [if_neg (by simp [h8])]
    simp only [hma, hmi, hpa]
    refine ⟨_, rfl, ?_, ?_⟩ <;>
    · simp only [ne_eq, h8, h4, not_true_eq_false, not_false_eq_true, if_false, if_true]
      by_cases hA : a < a' <;> by_cases hB : b < b' <;> by_cases hC : c < c' <;>
        simp [hA, hB, hC] <;> decide
  · exact absurd h4 (hcons h8)
  · rw [if_neg (by simp [h8, h4])]
    simp only [hma, hmi, hpa]
    refine ⟨_, rfl, ?_, ?_⟩ <;>
    · simp only [ne_eq, h8, h4, not_false_eq_true, if_true]
      by_cases hA : a < a' <;> by_cases hB : b < b' <;> by_cases hC : c < c' <;>
        simp [hA, hB, hC] <;> decide

/-- C1 witness: old 1.2.3, new 2.0.0, incompatible bits 0b1100. -/
theorem analyze_abi_diff_result_semver_policy_witness :
    ∃ v, analyze_abi_diff_result "1.2.3" "2.0.0" 12 = .ok v ∧
      (strStarts v "PASS" = true ↔
        (if (12 : Nat) &&& 0b1000 ≠ 0 then 1 < 2
         else if (12 : Nat) &&& 0b0100 ≠ 0 then 1 < 2 ∨ 2 < 0
         else True)) ∧
      (strStarts v "PASS" = true ∨ strStarts v "FAIL" = true) :=
  analyze_abi_diff_result_semver_policy "1.2.3" "2.0.0" 12 1 2 3 2 0 0
    (by rfl) (by rfl) (by decide) (by decide)

/-! ## C8: malformed version strings -/

/-- C8 counterexample: with old version "1.2.3.4" the claim's extraction
(strip from the first dash, plus or tilde) leaves "1.2.3.4", which does
not match the pattern, so the claim predicts an immediate ValueError;
but the code's extraction keeps the prefix "1.2.3" and the analysis
returns a verdict instead of raising. -/
theorem analyze_malformed_version_counterexample :
    isValidVersion (stripAtSuffixSeps "1.2.3.4") = false ∧
    analyze_abi_diff_result "1.2.3.4" "2.0.0" 0 = .ok "PASS : Major version increased" :=
  ⟨by decide, by rfl⟩

/-- C8 (amended): when either string, after the code's upstream-version
extraction (leading `major.minor.patch` prefix, the string unchanged when
absent), fails `^\d+\.\d+\.\d+(-\d+)?$`, `analyze_abi_diff_result`
raises the version ValueError — for every diff result, hence before any
assert or version-bump comparison — and produces no verdict. -/
theorem analyze_malformed_version_raises (old_version new_version : String) (r : Nat)
    (h : isValidVersion (extract_upstream_version old_version) = false ∨
         isValidVersion (extract_upstream_version new_version) = false) :
    ∃ e, analyze_abi_diff_result old_version new_version r = .error e ∧
      (e = "Invalid old version. Expected a string in the format major.minor.patch" ∨
       e = "Invalid new version. Expected a string in the format major.minor.patch") := by
  unfold analyze_abi_diff_result
  by_cases ho : isValidVersion (extract_upstream_version old_version) = true
  · have hn : isValidVersion (extract_upstream_version new_version) = false := by
      rcases h with h | h
      · rw [ho] at h
        exact absurd h (by simp)
      · exact h
    rw [if_neg (by simp [ho]), if_pos (by simp [hn])]
    exact ⟨_, rfl, Or.inr rfl⟩
  · rw [if_pos (by simpa using ho)]
    exact ⟨_, rfl, Or.inl rfl⟩

/-- C8 witness: "x.y" is rejected even with assert-triggering bits set. -/
theorem analyze_malformed_version_raises_witness :
    ∃ e, analyze_abi_diff_result "x.y" "2.0.0" 7 = .error e ∧
      (e = "Invalid old version. Expected a string in the format major.minor.patch" ∨
       e = "Invalid new version. Expected a string in the format major.minor.patch") :=
  analyze_malformed_version_raises "x.y" "2.0.0" 7 (Or.inl (by decide))


/-- C10 -/
theorem single_repo_no_core_deb (env : RepoEnv)
    (h : ∀ f ∈ env.files, ¬ strEnds f ".deb" = true ∨
      strContains f "-dev" = true ∨ strContains f "-dbgsym" = true) :
    single_repo_deb_abi_checker env = .ok (RETURN_ABI_NO_DIFF, []) := by
  unfold single_repo_deb_abi_checker
  have hempty : coreDebFiles env.files = [] := by
    unfold coreDebFiles
    rw [List.filter_eq_nil]
    intro f hf
    rcases h f hf with h1 | h1 | h1 <;> simp [h1]
  simp [hempty]

/-- C10 witness -/
theorem single_repo_no_core_deb_witness :
    single_repo_deb_abi_checker
      ⟨["readme.txt", "libfoo-dev_1.0.0_arm64.deb", "libbar-dbgsym_1.0.0_arm64.ddeb"],
       fun _ => ⟨true, true, [], 0, ""⟩⟩ = .ok (RETURN_ABI_NO_DIFF, []) :=
  single_repo_no_core_deb _ (by decide)

lemma nat_or_and_right (a b c : Nat) : (a ||| b) &&& c = (a &&& c) ||| (b &&& c) := by
  rw [Nat.and_comm (a ||| b) c, Nat.and_or_distrib_left, Nat.and_comm c a, Nat.and_comm c b]

lemma analyze_bits_congr (old_version new_version : String) (x y : Nat)
    (e3 : x &&& 0b0011 = 0 ↔ y &&& 0b0011 = 0)
    (e4 : x &&& 0b0100 = 0 ↔ y &&& 0b0100 = 0)
    (e8 : x &&& 0b1000 = 0 ↔ y &&& 0b1000 = 0) :
    analyze_abi_diff_result old_version new_version x =
    analyze_abi_diff_result old_version new_version y := by
  unfold analyze_abi_diff_result
  by_cases c3 : x &&& 3 = 0
  · have c3' : y &&& 3 = 0 := e3.mp c3
    by_cases c4 : x &&& 4 = 0
    · have c4' : y &&& 4 = 0 := e4.mp c4
      by_cases c8 : x &&& 8 = 0
      · have c8' : y &&& 8 = 0 := e8.mp c8
        simp [c3, c3', c4, c4', c8, c8']
      · have c8' : ¬ y &&& 8 = 0 := fun hy => c8 (e8.mpr hy)
        simp [c3, c3', c4, c4', c8, c8']
    · have c4' : ¬ y &&& 4 = 0 := fun hy => c4 (e4.mpr hy)
      by_cases c8 : x &&& 8 = 0
      · have c8' : y &&& 8 = 0 := e8.mp c8
        simp [c3, c3', c4, c4', c8, c8']
      · have c8' : ¬ y &&& 8 = 0 := fun hy => c8 (e8.mpr hy)
        simp [c3, c3', c4, c4', c8, c8']
  · have c3' : ¬ y &&& 3 = 0 := fun hy => c3 (e3.mpr hy)
    simp [c3, c3']

/-- C3 -/
theorem escalation_override (r : Nat) (output : String) (rem n : Nat)
    (h1 : r &&& 0b0001 = 0) (h2 : r &&& 0b0010 = 0)
    (h3 : r &&& 0b0100 ≠ 0) (h4 : r &&& 0b1000 = 0)
    (hs : searchSummary output.data = some (rem, n)) (hn : 0 < n) :
    classify_abi_result r output =
      .ok ⟨some "INCOMPATIBLE-DIFF", RETURN_ABI_INCOMPATIBLE_DIFF, some (r ||| 0b1000)⟩ ∧
    ∀ old_version new_version : String,
      analyze_abi_diff_result old_version new_version (r ||| 0b1000) =
      analyze_abi_diff_result old_version new_version 0b1100 := by
  have hr0 : r ≠ 0 := by
    intro h0
    exact h3 (by simp [h0])
  constructor
  · unfold classify_abi_result
    rw [if_pos hr0, if_neg (by simpa using h1), if_neg (by simpa using h2)]
    simp [h3, h4, hs, hn]
  · intro old_version new_version
    have d3 : (r ||| 8) &&& 3 = 0 := by
      have e1 : (r ||| 8) &&& 3 = (r &&& 3) ||| (8 &&& 3) := nat_or_and_right ..
      have hr3 : r &&& 3 = 0 := by
        have e2 : r &&& 3 = (r &&& 1) ||| (r &&& 2) := by
          rw [← Nat.and_or_distrib_left, show (1 : Nat) ||| 2 = 3 from by decide]
        rw [e2, h1, h2]
        decide
      rw [e1, hr3, show (8 : Nat) &&& 3 = 0 from by decide]
      decide
    have d4 : (r ||| 8) &&& 4 ≠ 0 := by
      have e1 : (r ||| 8) &&& 4 = (r &&& 4) ||| (8 &&& 4) := nat_or_and_right ..
      rw [e1, show (8 : Nat) &&& 4 = 0 by decide]
      simpa using h3
    have d8 : (r ||| 8) &&& 8 ≠ 0 := by
      have e1 : (r ||| 8) &&& 8 = (r &&& 8) ||| (8 &&& 8) := nat_or_and_right ..
      rw [e1, h4]
      decide
    refine analyze_bits_congr _ _ _ _ ?_ ?_ ?_
    · simp [d3]; decide
    · simp [d4]
    · simp [d8]



/-- C3 witness -/
theorem escalation_override_witness :
    classify_abi_result 4 "Functions changes summary: 0 Removed, 2 Changed, 0 Added" =
      .ok ⟨some "INCOMPATIBLE-DIFF", RETURN_ABI_INCOMPATIBLE_DIFF, some ((4 : Nat) ||| 0b1000)⟩ ∧
    analyze_abi_diff_result "1.2.3" "1.3.0" ((4 : Nat) ||| 0b1000) =
      analyze_abi_diff_result "1.2.3" "1.3.0" 0b1100 :=
  have h := escalation_override 4 "Functions changes summary: 0 Removed, 2 Changed, 0 Added"
    0 2 (by decide) (by decide) (by decide) (by decide) (by rfl) (by decide)
  ⟨h.1, h.2 "1.2.3" "1.3.0"⟩

lemma classify_return_values {r : Nat} {output : String} {c : ClassifyResult}
    (h : classify_abi_result r output = .ok c) :
    c.return_value = 0 ∨ c.return_value = 1 ∨ c.return_value = 2 ∨ c.return_value = 4 := by
  unfold classify_abi_result at h
  split at h
  · split at h
    · exact absurd h (by simp)
    · split at h
      · cases h
        simp [RETURN_ABI_STRIPPED_PACKAGE]
      · cases h
        by_cases b4 : r &&& 0b1000 ≠ 0
        · simp [b4, RETURN_ABI_INCOMPATIBLE_DIFF]
        · by_cases b3 : r &&& 0b0100 ≠ 0
          · simp only [b4, b3, decide_eq_true_eq, if_true, if_false]
            rcases hs : searchSummary output.data with _ | counts
            · simp [hs, RETURN_ABI_COMPATIBLE_DIFF, b4, b3]
            · by_cases hc : counts.2 > 0
              · simp [hs, hc, RETURN_ABI_INCOMPATIBLE_DIFF, b4, b3]
              · simp [hs, hc, RETURN_ABI_COMPATIBLE_DIFF, b4, b3]
          · simp [b3, b4]
  · cases h
    simp [RETURN_ABI_NO_DIFF]



lemma abiCoreOutcome_values {env : PkgEnv} {nv : String} {ret : Int}
    (h : abiCoreOutcome env nv = .ok ret) :
    ret = 0 ∨ ret = 1 ∨ ret = 2 ∨ ret = 4 ∨ ret = 8 ∨ ret = 16 := by
  unfold abiCoreOutcome at h
  split at h
  · cases h
    simp [RETURN_PPA_ERROR]
  · split at h
    · cases h
      simp [RETURN_PPA_PACKAGE_NOT_FOUND]
    · split at h
      · exact absurd h (by simp)
      · split at h
        · exact absurd h (by simp)
        · split at h
          · exact absurd h (by simp)
          · next cls heq =>
            have hc := classify_return_values heq
            split at h
            · cases h
              tauto
            · split at h
              · exact absurd h (by simp)
              · cases h
                tauto

lemma afterDevOutcome_values {env : PkgEnv} {nv : String} {dd : List String} {ret : Int}
    (h : afterDevOutcome env nv dd = .ok ret) :
    ret = 0 ∨ ret = 1 ∨ ret = 2 ∨ ret = 4 ∨ ret = 8 ∨ ret = 16 := by
  unfold afterDevOutcome at h
  split at h
  · exact abiCoreOutcome_values h
  · exact abiCoreOutcome_values h
  · cases h
    tauto

lemma single_package_outcome_values {files : List String} {env : PkgEnv}
    {pn pf : String} {ret : Int}
    (h : single_package_abi_checker files env pn pf = .ok ret) :
    ret = -1 ∨ ret = 0 ∨ ret = 1 ∨ ret = 2 ∨ ret = 4 ∨ ret = 8 ∨ ret = 16 := by
  unfold single_package_abi_checker at h
  split at h
  · exact absurd h (by simp)
  · split at h
    · exact absurd h (by simp)
    · simp only [ne_eq] at h
      split at h
      · exact Or.inr (afterDevOutcome_values h)
      · exact Or.inr (afterDevOutcome_values h)
      · split at h
        · exact absurd h (by simp)
        · exact Or.inr (afterDevOutcome_values h)
        · cases h
          tauto



lemma singleRepoLoop_or (env : RepoEnv) :
    ∀ (fs : List String) (acc : Int) (recs : List String) (v : Int) (recs' : List String),
    singleRepoLoop env fs acc recs = .ok (v, recs') →
    ∃ outs : List Int,
      fs.mapM (fun f =>
        single_package_abi_checker env.files (env.pkg_env f) (pkgNameOf f) f) = .ok outs ∧
      v = outs.foldl Int.lor acc := by
  intro fs
  induction fs with
  | nil =>
    intro acc recs v recs' h
    unfold singleRepoLoop at h
    refine ⟨[], by rfl, ?_⟩
    cases h
    rfl
  | cons f rest ih =>
    intro acc recs v recs' h
    unfold singleRepoLoop at h
    cases hsp : single_package_abi_checker env.files (env.pkg_env f) (pkgNameOf f) f with
    | error e =>
      simp only [hsp] at h
      exact absurd h (by simp)
    | ok ret =>
      simp only [hsp] at h
      obtain ⟨outs, hmap, hv⟩ := ih (Int.lor acc ret) (recs ++ [pkgNameOf f]) v recs' h
      refine ⟨ret :: outs, ?_, ?_⟩
      · rw [List.mapM_cons, hsp, hmap]
        rfl
      · simpa using hv

lemma multiRepo_or :
    ∀ (envs : List RepoEnv) (acc v : Int),
    multiple_repo_deb_abi_checker envs acc = .ok v →
    ∃ vs : List Int,
      envs.mapM (fun e => (single_repo_deb_abi_checker e).map Prod.fst) = .ok vs ∧
      v = vs.foldl Int.lor acc := by
  intro envs
  induction envs with
  | nil =>
    intro acc v h
    unfold multiple_repo_deb_abi_checker at h
    refine ⟨[], by rfl, ?_⟩
    cases h
    rfl
  | cons e rest ih =>
    intro acc v h
    unfold multiple_repo_deb_abi_checker at h
    cases hsr : single_repo_deb_abi_checker e with
    | error msg =>
      simp only [hsr] at h
      exact absurd h (by simp)
    | ok r =>
      simp only [hsr] at h
      obtain ⟨vs, hmap, hv⟩ := ih (Int.lor acc r.1) v h
      refine ⟨r.1 :: vs, ?_, ?_⟩
      · rw [List.mapM_cons, hsr, hmap]
        rfl
      · simpa using hv

/-- C5 (amended) -/
theorem abi_outcomes_and_bitmask_or :
    (∀ (files : List String) (env : PkgEnv) (pn pf : String) (ret : Int),
      single_package_abi_checker files env pn pf = .ok ret →
      ret = -1 ∨ ret = 0 ∨ ret = 1 ∨ ret = 2 ∨ ret = 4 ∨ ret = 8 ∨ ret = 16) ∧
    (∀ (env : RepoEnv) (v : Int) (recs : List String),
      single_repo_deb_abi_checker env = .ok (v, recs) →
      ∃ outs : List Int,
        (coreDebFiles env.files).mapM (fun f =>
          single_package_abi_checker env.files (env.pkg_env f) (pkgNameOf f) f) = .ok outs ∧
        v = outs.foldl Int.lor 0) ∧
    (∀ (envs : List RepoEnv) (v : Int),
      multiple_repo_deb_abi_checker envs 0 = .ok v →
      ∃ vs : List Int,
        envs.mapM (fun e => (single_repo_deb_abi_checker e).map Prod.fst) = .ok vs ∧
        v = vs.foldl Int.lor 0) := by
  refine ⟨fun files env pn pf ret h => single_package_outcome_values h, ?_, ?_⟩
  · intro env v recs h
    unfold single_repo_deb_abi_checker at h
    by_cases hd : (coreDebFiles env.files).isEmpty = true
    · rw [if_pos hd] at h
      rw [List.isEmpty_iff] at hd
      refine ⟨[], ?_, ?_⟩
      · rw [hd]
        rfl
      · cases h
        rfl
    · rw [if_neg hd] at h
      exact singleRepoLoop_or env _ 0 [] v recs h
  · intro envs v h
    exact multiRepo_or envs 0 v h

/-- C5 counterexample -/
theorem abi_outcome_minus_one_counterexample :
    single_package_abi_checker
      ["libfoo_1.0.0_arm64.deb", "libfoo-dev_1.0.0_arm64.deb", "libfoo-dev_2.0.0_arm64.deb"]
      ⟨true, true, ["libfoo_0.9.0_arm64.deb"], 0, ""⟩ "libfoo" "libfoo_1.0.0_arm64.deb"
      = .ok (-1) ∧
    ¬ ((-1 : Int) = 0 ∨ (-1 : Int) = 1 ∨ (-1 : Int) = 2 ∨ (-1 : Int) = 4 ∨
       (-1 : Int) = 8 ∨ (-1 : Int) = 16) :=
  ⟨by rfl, by decide⟩

/-- C5 witness -/
theorem abi_outcomes_and_bitmask_or_witness :
    ((0 : Int) = -1 ∨ (0 : Int) = 0 ∨ (0 : Int) = 1 ∨ (0 : Int) = 2 ∨ (0 : Int) = 4 ∨
      (0 : Int) = 8 ∨ (0 : Int) = 16) ∧
    (∃ outs : List Int,
      (coreDebFiles ["libfoo_1.0.0_arm64.deb"]).mapM (fun f =>
        single_package_abi_checker ["libfoo_1.0.0_arm64.deb"]
          ⟨true, true, ["libfoo_0.9.0_arm64.deb"], 0, ""⟩ (pkgNameOf f) f) = .ok outs ∧
      (0 : Int) = outs.foldl Int.lor 0) ∧
    (∃ vs : List Int, ([] : List RepoEnv).mapM
        (fun e => (single_repo_deb_abi_checker e).map Prod.fst) = .ok vs ∧
      (0 : Int) = vs.foldl Int.lor 0) :=
  ⟨abi_outcomes_and_bitmask_or.1 ["libfoo_1.0.0_arm64.deb"]
      ⟨true, true, ["libfoo_0.9.0_arm64.deb"], 0, ""⟩ "libfoo" "libfoo_1.0.0_arm64.deb" 0
      (by rfl),
   abi_outcomes_and_bitmask_or.2.1
      ⟨["libfoo_1.0.0_arm64.deb"], fun _ => ⟨true, true, ["libfoo_0.9.0_arm64.deb"], 0, ""⟩⟩
      0 ["libfoo"] (by rfl),
   abi_outcomes_and_bitmask_or.2.2 [] 0 (by rfl)⟩

/-! ## C9: targeted build error handling -/

lemma depsLoop_result (bsp : List (Desc × Bool) → String → Except BuildErr (List (Desc × Bool)))
    (dkey : String) :
    ∀ (deps : List String) (st : List (Desc × Bool)),
    (∃ st2, depsLoop bsp dkey deps st = .ok st2) ∨
    (∃ m, depsLoop bsp dkey deps st = .error (.buildFail m)) := by
  intro deps
  induction deps with
  | nil =>
    intro st
    exact Or.inl ⟨st, rfl⟩
  | cons dep rest ih =>
    intro st
    unfold depsLoop
    cases hb : bsp (markVisited st dkey) dep with
    | ok st2 =>
      simp only [hb]
      exact ih st2
    | error e =>
      cases e with
      | notFound m =>
        simp only [hb]
        exact ih (markVisited st dkey)
      | buildFail m =>
        simp only [hb]
        exact Or.inr ⟨m, rfl⟩

/-- C9: on a freshly loaded descriptor table (all `visited` flags false),
the targeted build raises `PackageNotFoundError` exactly when no
descriptor produces the requested name; during the dependency loop a
`PackageNotFoundError` from a dependency is swallowed and processing
continues with the next dependency, while a `PackageBuildError` from a
dependency propagates immediately. -/
theorem build_specific_package_errors :
    (∀ (env : String → Bool) (st : List (Desc × Bool)) (name : String),
      (∀ p ∈ st, p.2 = false) →
      ((∃ m, build_specific_package_top env st name = .error (.notFound m)) ↔
        ∀ p ∈ st, name ∉ p.1.packages)) ∧
    (∀ (bsp : List (Desc × Bool) → String → Except BuildErr (List (Desc × Bool)))
        (dkey dep : String) (rest : List String) (st : List (Desc × Bool)) (m : String),
      bsp (markVisited st dkey) dep = .error (.notFound m) →
      depsLoop bsp dkey (dep :: rest) st = depsLoop bsp dkey rest (markVisited st dkey)) ∧
    (∀ (bsp : List (Desc × Bool) → String → Except BuildErr (List (Desc × Bool)))
        (dkey dep : String) (rest : List String) (st : List (Desc × Bool)) (m : String),
      bsp (markVisited st dkey) dep = .error (.buildFail m) →
      depsLoop bsp dkey (dep :: rest) st = .error (.buildFail m)) := by
  refine ⟨?_, ?_, ?_⟩
  · intro env st name hfresh
    constructor
    · rintro ⟨m, hm⟩
      intro p hp
      unfold build_specific_package_top build_specific_package at hm
      cases hfind : st.find? (fun q => !q.2 && q.1.packages.contains name) with
      | none =>
        rw [List.find?_eq_none] at hfind
        have := hfind p hp
        simp [hfresh p hp] at this
        simpa using this
      | some q =>
        rw [hfind] at hm
        rcases depsLoop_result (build_specific_package env st.length) q.1.key
            q.1.dependencies st with ⟨st2, hd⟩ | ⟨m2, hd⟩
        · simp only [hd] at hm
          by_cases he : env q.1.key = true
          · rw [if_pos he] at hm
            exact absurd hm (by simp)
          · rw [if_neg he] at hm
            exact absurd hm (by simp)
        · simp only [hd] at hm
          exact absurd hm (by simp)
    · intro hnone
      have hfind : st.find? (fun q => !q.2 && q.1.packages.contains name) = none := by
        rw [List.find?_eq_none]
        intro p hp
        simp [hnone p hp]
      refine ⟨"Package " ++ name ++ " not found.", ?_⟩
      unfold build_specific_package_top build_specific_package
      rw [hfind]
  · intro bsp dkey dep rest st m hb
    conv_lhs => rw [depsLoop]
    simp only [hb]
  · intro bsp dkey dep rest st m hb
    conv_lhs => rw [depsLoop]
    simp only [hb]

/-- C9 witness -/
theorem build_specific_package_errors_witness :
    ((∃ m, build_specific_package_top (fun _ => true)
        [(⟨"A", ["liba"], []⟩, false)] "nope" = .error (.notFound m)) ↔
      ∀ p ∈ [((⟨"A", ["liba"], []⟩ : Desc), false)], "nope" ∉ p.1.packages) ∧
    depsLoop (build_specific_package (fun _ => true) 1) "A" ["ghost"]
        [(⟨"A", ["liba"], ["ghost"]⟩, false)] =
      depsLoop (build_specific_package (fun _ => true) 1) "A" []
        (markVisited [(⟨"A", ["liba"], ["ghost"]⟩, false)] "A") ∧
    depsLoop (build_specific_package (fun _ => false) 3) "B" ["liba"]
        [(⟨"A", ["liba"], []⟩, false), (⟨"B", ["libb"], ["liba"]⟩, false)] =
      .error (.buildFail "Failed to build A") :=
  ⟨build_specific_package_errors.1 (fun _ => true) [(⟨"A", ["liba"], []⟩, false)] "nope"
      (by decide),
   build_specific_package_errors.2.1 (build_specific_package (fun _ => true) 1)
      "A" "ghost" [] [(⟨"A", ["liba"], ["ghost"]⟩, false)] "Package ghost not found."
      (by rfl),
   build_specific_package_errors.2.2 (build_specific_package (fun _ => false) 3)
      "B" "liba" [] [(⟨"A", ["liba"], []⟩, false), (⟨"B", ["libb"], ["liba"]⟩, false)]
      "Failed to build A" (by rfl)⟩

/-! ## C6: control-file dependency parsing -/

lemma takeWhile_append_dropWhile_eq (p : String → Bool) (l : List String) :
    l.takeWhile p ++ l.dropWhile p = l := List.takeWhile_append_dropWhile p l

lemma addUnique_nodup {l : List String} (h : l.Nodup) (x : String) :
    (addUnique l x).Nodup := by
  unfold addUnique
  split
  · exact h
  · next hx => simpa [List.nodup_append] using ⟨h, hx⟩

lemma dedupFirst_nodup (l : List String) : (dedupFirst l).Nodup := by
  suffices h : ∀ acc : List String, acc.Nodup → (l.foldl addUnique acc).Nodup from
    h [] List.nodup_nil
  induction l with
  | nil => exact fun acc h => h
  | cons x xs ih => exact fun acc h => ih (addUnique acc x) (addUnique_nodup h x)

lemma indented_not_starts {l : String} (h : isIndentedLine l = true) :
    strStarts l "Package:" = false ∧ strStarts l "Build-Depends:" = false := by
  unfold isIndentedLine at h
  unfold strStarts
  cases hd : l.data with
  | nil => rw [hd] at h; exact absurd h (by simp)
  | cons c cs =>
    rw [hd] at h
    simp only [Bool.or_eq_true, decide_eq_true_eq] at h
    constructor <;>
    · show List.isPrefixOf _ (c :: cs) = false
      simp only [List.isPrefixOf, Bool.and_eq_false_iff]
      left
      rcases h with h | h <;> simp [h]

lemma dropWhile_head_false {α : Type} {p : α → Bool} :
    ∀ {l : List α} {x : α} {xs : List α}, l.dropWhile p = x :: xs → p x = false := by
  intro l
  induction l with
  | nil => intro x xs h; exact absurd h (by simp)
  | cons a as ih =>
    intro x xs h
    rw [List.dropWhile_cons] at h
    by_cases ha : p a = true
    · rw [if_pos ha] at h
      exact ih h
    · rw [if_neg ha] at h
      cases h
      simpa using ha

lemma ctrl_fold_noBD :
    ∀ (ls : List String) (pk bd : List String),
    (∀ l ∈ ls, strStarts l "Build-Depends:" = false) →
    ∃ pk', ls.foldl ctrlStep ⟨pk, false, bd⟩ = ⟨pk', false, bd⟩ := by
  intro ls
  induction ls with
  | nil => exact fun pk bd _ => ⟨pk, rfl⟩
  | cons l rest ih =>
    intro pk bd h
    have hl := h l (by simp)
    have hstep : ∃ pk1, ctrlStep ⟨pk, false, bd⟩ l = ⟨pk1, false, bd⟩ := by
      unfold ctrlStep
      by_cases hp : strStarts l "Package:" = true
      · refine ⟨addUnique pk (String.mk (pyStrip ((afterColon (pyStrip l.data)).getD []))), ?_⟩
        simp [hp]
      · exact ⟨pk, by simp [hp, hl]⟩
    obtain ⟨pk1, hs⟩ := hstep
    rw [List.foldl_cons, hs]
    exact ih pk1 bd (fun x hx => h x (by simp [hx]))

lemma ctrl_fold_indented :
    ∀ (ls : List String) (pk bd : List String),
    (∀ l ∈ ls, isIndentedLine l = true) →
    ls.foldl ctrlStep ⟨pk, true, bd⟩ =
      ⟨pk, true, bd ++ ((ls.map (fun l => pyStrip l.data)).filter (· ≠ [])).map String.mk⟩ := by
  intro ls
  induction ls with
  | nil => intro pk bd _; simp
  | cons l rest ih =>
    intro pk bd h
    have hl := h l (by simp)
    obtain ⟨hnp, hnb⟩ := indented_not_starts hl
    have hs : ctrlStep ⟨pk, true, bd⟩ l =
        ⟨pk, true, bd ++ (if pyStrip l.data ≠ [] then [String.mk (pyStrip l.data)] else [])⟩ := by
      unfold ctrlStep
      by_cases he : pyStrip l.data ≠ []
      · simp [hnp, hnb, hl, he]
      · simp [hnp, hnb, hl, he]
    rw [List.foldl_cons, hs, ih _ _ (fun x hx => h x (by simp [hx]))]
    by_cases he : pyStrip l.data ≠ [] <;> simp [he]



lemma starts_BD_not_P {l : String} (h : strStarts l "Build-Depends:" = true) :
    strStarts l "Package:" = false := by
  unfold strStarts at h ⊢
  cases hd : l.data with
  | nil => rw [hd] at h; exact absurd h (by decide)
  | cons c cs =>
    rw [hd] at h
    simp only [List.isPrefixOf, Bool.and_eq_true, beq_iff_eq] at h
    simp [List.isPrefixOf, ← h.1]

lemma ctrl_fold_block (lines : List String)
    (H1 : (lines.filter (fun l => strStarts l "Build-Depends:")).length ≤ 1)
    (H2 : match lines.dropWhile (fun l => !strStarts l "Build-Depends:") with
          | [] => True
          | _ :: post =>
            match post.dropWhile isIndentedLine with
            | [] => True
            | l :: _ => strStarts l "Package:" = false) :
    ∃ pk' fb, lines.foldl ctrlStep ⟨[], false, []⟩ = ⟨pk', fb, claimBlock lines⟩ := by
  have hsplit := takeWhile_append_dropWhile_eq
    (fun l => !strStarts l "Build-Depends:") lines
  have hA : ∀ l ∈ lines.takeWhile (fun l => !strStarts l "Build-Depends:"),
      strStarts l "Build-Depends:" = false := by
    intro l hl
    have := List.mem_takeWhile_imp hl
    simpa using this
  obtain ⟨pkA, hfoldA⟩ := ctrl_fold_noBD _ [] [] hA
  cases hD : lines.dropWhile (fun l => !strStarts l "Build-Depends:") with
  | nil =>
    have hblock : claimBlock lines = [] := by
      unfold claimBlock
      rw [hD]
    rw [hblock, ← hsplit, hD, List.append_nil, hfoldA]
    exact ⟨pkA, false, rfl⟩
  | cons bdl post =>
    have hbd : strStarts bdl "Build-Depends:" = true := by
      have := dropWhile_head_false hD
      simpa using this
    have hpost_noBD : ∀ l ∈ post, strStarts l "Build-Depends:" = false := by
      have hfl : (lines.filter (fun l => strStarts l "Build-Depends:")).length =
          ((lines.takeWhile (fun l => !strStarts l "Build-Depends:")).filter
            (fun l => strStarts l "Build-Depends:")).length +
          ((bdl :: post).filter (fun l => strStarts l "Build-Depends:")).length := by
        conv_lhs => rw [← hsplit, hD]
        rw [List.filter_append, List.length_append]
      have hfA : ((lines.takeWhile (fun l => !strStarts l "Build-Depends:")).filter
          (fun l => strStarts l "Build-Depends:")) = [] := by
        rw [List.filter_eq_nil]
        intro l hl
        simp [hA l hl]
      rw [hfA, List.filter_cons_of_pos (by simpa using hbd)] at hfl
      simp only [List.length_nil, List.length_cons, Nat.zero_add] at hfl
      rw [hfl] at H1
      have : (post.filter (fun l => strStarts l "Build-Depends:")) = [] :=
        List.eq_nil_of_length_eq_zero (by omega)
      rw [List.filter_eq_nil] at this
      intro l hl
      simpa using this l hl
    -- one step over the Build-Depends line itself
    have hstepBD : ctrlStep ⟨pkA, false, []⟩ bdl =
        ⟨pkA, true,
          if pyStrip ((afterColon (pyStrip bdl.data)).getD []) ≠ [] then
            [String.mk (pyStrip ((afterColon (pyStrip bdl.data)).getD []))]
          else []⟩ := by
      unfold ctrlStep
      by_cases he : pyStrip ((afterColon (pyStrip bdl.data)).getD []) ≠ [] <;>
        simp [starts_BD_not_P hbd, hbd, he]
    have hCind : ∀ l ∈ post.takeWhile isIndentedLine, isIndentedLine l = true :=
      fun l hl => List.mem_takeWhile_imp hl
    have hsplitC := takeWhile_append_dropWhile_eq isIndentedLine post
    have hblock : claimBlock lines =
        (if pyStrip ((afterColon (pyStrip bdl.data)).getD []) ≠ [] then
          [String.mk (pyStrip ((afterColon (pyStrip bdl.data)).getD []))]
        else []) ++
        (((post.takeWhile isIndentedLine).map (fun l => pyStrip l.data)).filter
          (· ≠ [])).map String.mk := by
      unfold claimBlock
      rw [hD]
    have hfoldC := ctrl_fold_indented (post.takeWhile isIndentedLine) pkA
      (if pyStrip ((afterColon (pyStrip bdl.data)).getD []) ≠ [] then
        [String.mk (pyStrip ((afterColon (pyStrip bdl.data)).getD []))]
      else []) hCind
    have H2' : (match post.dropWhile isIndentedLine with
        | [] => True
        | l :: _ => strStarts l "Package:" = false) := by
      rw [hD] at H2
      exact H2
    cases hR : post.dropWhile isIndentedLine with
    | nil =>
      refine ⟨pkA, true, ?_⟩
      conv_lhs => rw [← hsplit, hD, List.foldl_append, hfoldA, List.foldl_cons, hstepBD,
        ← hsplitC, hR, List.append_nil, hfoldC]
      rw [hblock]
    | cons l0 rest' =>
      have hl0P : strStarts l0 "Package:" = false := by
        rw [hR] at H2'
        exact H2'
      have hl0ind : isIndentedLine l0 = false := dropWhile_head_false hR
      have hl0mem : l0 ∈ post := by
        have : l0 ∈ post.dropWhile isIndentedLine := by
          rw [hR]
          simp
        exact (List.dropWhile_sublist _).subset this
      have hl0BD := hpost_noBD l0 hl0mem
      have hstepL0 : ctrlStep ⟨pkA, true, claimBlock lines⟩ l0 =
          ⟨pkA, false, claimBlock lines⟩ := by
        unfold ctrlStep
        simp [hl0P, hl0BD, hl0ind]
      have hrest' : ∀ l ∈ rest', strStarts l "Build-Depends:" = false := by
        intro l hl
        refine hpost_noBD l ?_
        have : l ∈ post.dropWhile isIndentedLine := by
          rw [hR]
          simp [hl]
        exact (List.dropWhile_sublist _).subset this
      obtain ⟨pk', hfoldE⟩ := ctrl_fold_noBD rest' pkA (claimBlock lines) hrest'
      refine ⟨pk', false, ?_⟩
      conv_lhs => rw [← hsplit, hD, List.foldl_append, hfoldA, List.foldl_cons, hstepBD,
        ← hsplitC, hR, List.foldl_append, hfoldC, ← hblock, List.foldl_cons, hstepL0,
        hfoldE]



/-- C6 counterexample: on the entry "a,b" (comma without space) the code
keeps one entry "a,b" while the claim's comma-separated reading yields
two entries "a" and "b"; the returned dependency set differs from the
claimed one. -/
theorem get_packages_comma_counterexample :
    get_packages_from_control ["Package: foo", "Build-Depends: a,b"] =
      .ok (["foo"], ["a,b"]) ∧
    claimDeps ["Package: foo", "Build-Depends: a,b"] = some ["a", "b"] ∧
    "a,b" ∈ (["a,b"] : List String) ∧ "a,b" ∉ (["a", "b"] : List String) :=
  ⟨by rfl, by rfl, by decide, by decide⟩

/-- C6 (amended): on a control file with at most one Build-Depends line
whose continuation block is not immediately followed by a Package: line,
whenever the parse returns, the dependency set is the set of first
whitespace-delimited tokens of the comma-space-separated entries of the
Build-Depends value plus its indented continuation lines up to the first
non-indented line, duplicates removed. -/
theorem get_packages_deps_spec (lines : List String)
    (H1 : (lines.filter (fun l => strStarts l "Build-Depends:")).length ≤ 1)
    (H2 : match lines.dropWhile (fun l => !strStarts l "Build-Depends:") with
          | [] => True
          | _ :: post =>
            match post.dropWhile isIndentedLine with
            | [] => True
            | l :: _ => strStarts l "Package:" = false)
    (pkgs deps : List String)
    (hok : get_packages_from_control lines = .ok (pkgs, deps)) :
    claimDepsCS lines = some deps ∧ deps.Nodup := by
  obtain ⟨pk', fb, hfold⟩ := ctrl_fold_block lines H1 H2
  unfold get_packages_from_control at hok
  rw [hfold] at hok
  unfold claimDepsCS
  by_cases hb : claimBlock lines = []
  · rw [if_pos hb]
    simp only [hb, ne_eq, not_true_eq_false, if_false] at hok
    split at hok
    · exact absurd hok (by simp)
    · simp only [Except.ok.injEq, Prod.mk.injEq] at hok
      rw [← hok.2]
      exact ⟨rfl, List.nodup_nil⟩
  · rw [if_neg hb]
    simp only [hb, ne_eq, not_false_eq_true, if_true] at hok
    cases hts : (splitOnSeq ", ".data (joinSpace (claimBlock lines))).mapM firstToken with
    | none =>
      rw [hts] at hok
      exact absurd hok (by simp [Option.map])
    | some ts =>
      rw [hts] at hok
      simp only [Option.map] at hok
      split at hok
      · exact absurd hok (by simp)
      · simp only [Except.ok.injEq, Prod.mk.injEq] at hok
        rw [← hok.2]
        exact ⟨rfl, dedupFirst_nodup _⟩

/-- C6 witness -/
theorem get_packages_deps_spec_witness :
    claimDepsCS ["Package: foo", "Build-Depends: libA (>= 1.0), libB", " libC, libA",
        "Standards-Version: 4"] = some ["libA", "libB"] ∧
    (["libA", "libB"] : List String).Nodup :=
  get_packages_deps_spec _ (by decide)
    (by exact (by decide : strStarts "Standards-Version: 4" "Package:" = false))
    ["foo"] ["libA", "libB"] (by rfl)

/-! ## C4 and C7: cycle abort and forced-minimum recovery -/

/-- C4: whenever a vertex of positive in-degree survives the drained
Kahn queue, `detect_cycle` returns no usable order (Python `None`), and
`build_all_packages` — whose `for pkg in sorted_order` then raises a
`TypeError` — invokes the per-descriptor build on no descriptor. -/
theorem detect_cycle_cycle_aborts (env : String → Bool) (descs : List Desc)
    (final : KState)
    (hf : kahnFinal descs = some final)
    (hcyc : ∃ v ∈ (buildGraph descs).verts, 0 < final.deg v) :
    detect_cycle descs = .ok none ∧
    build_all_packages env descs = ([], some "TypeError: NoneType object is not iterable") := by
  have hne : descs.isEmpty = false := by
    cases hd : descs with
    | nil =>
      rw [hd] at hf
      rw [show kahnFinal [] = none from rfl] at hf
      exact absurd hf (by simp)
    | cons d ds => rfl
  have hdc : detect_cycle descs = .ok none := by
    unfold detect_cycle
    rw [hne, hf]
    simp only [Bool.false_eq_true, if_false]
    rw [if_neg ?_]
    obtain ⟨v, hv, hpos⟩ := hcyc
    intro hemp
    rw [List.isEmpty_iff] at hemp
    have : v ∈ (buildGraph descs).verts.filter (fun v => decide (0 < final.deg v)) :=
      List.mem_filter.mpr ⟨hv, by simpa using hpos⟩
    rw [hemp] at this
    exact absurd this (by simp)
  refine ⟨hdc, ?_⟩
  unfold build_all_packages
  rw [hdc]

/-- C4 witness: a zero-in-degree seed drains while the 2-cycle x↔y keeps
positive in-degree. -/
theorem detect_cycle_cycle_aborts_witness :
    detect_cycle [⟨"A", ["a"], []⟩, ⟨"B", ["x"], ["y"]⟩, ⟨"C", ["y"], ["x"]⟩] = .ok none ∧
    build_all_packages (fun _ => true)
        [⟨"A", ["a"], []⟩, ⟨"B", ["x"], ["y"]⟩, ⟨"C", ["y"], ["x"]⟩] =
      ([], some "TypeError: NoneType object is not iterable") :=
  detect_cycle_cycle_aborts (fun _ => true) _ _ (by rfl) ⟨"x", by decide, by decide⟩

lemma minKey_spec (deg : String → Int) :
    ∀ (vs : List String) (v0 : String),
    minKey deg v0 vs ∈ v0 :: vs ∧
    (∀ w ∈ v0 :: vs, deg (minKey deg v0 vs) ≤ deg w) ∧
    (v0 :: vs).find? (fun w => decide (deg w = deg (minKey deg v0 vs))) =
      some (minKey deg v0 vs) := by
  intro vs
  induction vs with
  | nil =>
    intro v0
    refine ⟨by simp [minKey], ?_, ?_⟩
    · intro w hw
      simp only [List.mem_singleton] at hw
      simp [hw, minKey]
    · simp [minKey, List.find?]
  | cons w vs ih =>
    intro v0
    have hstep : minKey deg v0 (w :: vs) = minKey deg (if deg w < deg v0 then w else v0) vs := by
      unfold minKey
      rfl
    obtain ⟨ihm, ihmin, ihfind⟩ := ih (if deg w < deg v0 then w else v0)
    set m := minKey deg (if deg w < deg v0 then w else v0) vs with hm
    rw [hstep]
    have hv0' : (if deg w < deg v0 then w else v0) ∈ [w, v0] := by
      by_cases hc : deg w < deg v0 <;> simp [hc]
    have hmle : deg m ≤ deg v0 ∧ deg m ≤ deg w := by
      have h1 := ihmin (if deg w < deg v0 then w else v0) (by simp)
      by_cases hc : deg w < deg v0
      · rw [if_pos hc] at h1
        exact ⟨le_trans h1 (le_of_lt hc), h1⟩
      · rw [if_neg hc] at h1
        exact ⟨h1, le_trans h1 (by omega)⟩
    refine ⟨?_, ?_, ?_⟩
    · rcases List.mem_cons.mp ihm with hm0 | hmv
      · by_cases hc : deg w < deg v0
        · rw [if_pos hc] at hm0
          simp [hm0]
        · rw [if_neg hc] at hm0
          simp [hm0]
      · simp only [List.mem_cons]
        tauto
    · intro x hx
      rcases List.mem_cons.mp hx with rfl | hx'
      · exact hmle.1
      · rcases List.mem_cons.mp hx' with rfl | hx'' 
        · exact hmle.2
        · exact ihmin x (by simp [hx''])
    · by_cases hpv0 : deg v0 = deg m
      · have hv0m : m = v0 := by
          by_cases hc : deg w < deg v0
          · exfalso
            rw [if_pos hc] at ihm ihmin
            have := hmle.2
            omega
          · rw [if_neg hc] at ihfind
            have hfirst : (v0 :: vs).find? (fun x => decide (deg x = deg m)) = some m := ihfind
            rw [List.find?_cons_of_pos _ (by simpa using hpv0)] at hfirst
            exact (Option.some_inj.mp hfirst).symm
        rw [List.find?_cons_of_pos _ (by simpa using hpv0)]
        rw [hv0m]
      · rw [List.find?_cons_of_neg _ (by simpa using hpv0)]
        by_cases hc : deg w < deg v0
        · rw [if_pos hc] at ihfind
          exact ihfind
        · rw [if_neg hc] at ihfind
          rw [List.find?_cons_of_neg _ (by simpa using hpv0)] at ihfind
          have hpw : ¬ deg w = deg m := by
            intro he
            have h2 := hmle.1
            omega
          rw [List.find?_cons_of_neg _ (by simpa using hpw)]
          exact ihfind



/-- C7: when no vertex starts at in-degree 0, the run consists of exactly
one forced insertion — the queue is seeded with the single vertex of
globally minimum in-degree, the first-seen one on a tie — followed by
plain Kahn processing (`kahnLoop` itself only ever enqueues vertices
whose in-degree reaches zero, so no further forced insertion exists). -/
theorem detect_cycle_forced_min (descs : List Desc) (v0 : String) (vs : List String)
    (hverts : (buildGraph descs).verts = v0 :: vs)
    (hq0 : (buildGraph descs).verts.filter
      (fun v => decide ((buildGraph descs).deg v = 0)) = []) :
    kahnFinal descs = some (kahnLoop (buildGraph descs).adj
      ((buildGraph descs).verts.length + numEdges descs + 1)
      ⟨[minKey (buildGraph descs).deg v0 vs], [], (buildGraph descs).deg⟩) ∧
    minKey (buildGraph descs).deg v0 vs ∈ (buildGraph descs).verts ∧
    (∀ w ∈ (buildGraph descs).verts,
      (buildGraph descs).deg (minKey (buildGraph descs).deg v0 vs) ≤
        (buildGraph descs).deg w) ∧
    (buildGraph descs).verts.find? (fun w =>
        decide ((buildGraph descs).deg w =
          (buildGraph descs).deg (minKey (buildGraph descs).deg v0 vs))) =
      some (minKey (buildGraph descs).deg v0 vs) := by
  obtain ⟨hm, hmin, hfind⟩ := minKey_spec (buildGraph descs).deg vs v0
  refine ⟨?_, by rw [hverts]; exact hm, by rw [hverts]; exact hmin,
    by rw [hverts]; exact hfind⟩
  unfold kahnFinal kahnInitQueue
  simp only [hverts] at hq0
  simp only [hverts, hq0, List.isEmpty_nil, if_true, Option.map]

/-- C7 witness: the pure 2-cycle; the tie at in-degree 1 picks the
first-seen vertex x. -/
theorem detect_cycle_forced_min_witness :
    kahnFinal [⟨"A", ["x"], ["y"]⟩, ⟨"B", ["y"], ["x"]⟩] =
      some (kahnLoop (buildGraph [⟨"A", ["x"], ["y"]⟩, ⟨"B", ["y"], ["x"]⟩]).adj
        ((buildGraph [⟨"A", ["x"], ["y"]⟩, ⟨"B", ["y"], ["x"]⟩]).verts.length +
          numEdges [⟨"A", ["x"], ["y"]⟩, ⟨"B", ["y"], ["x"]⟩] + 1)
        ⟨[minKey (buildGraph [⟨"A", ["x"], ["y"]⟩, ⟨"B", ["y"], ["x"]⟩]).deg "x" ["y"]],
          [], (buildGraph [⟨"A", ["x"], ["y"]⟩, ⟨"B", ["y"], ["x"]⟩]).deg⟩) ∧
    minKey (buildGraph [⟨"A", ["x"], ["y"]⟩, ⟨"B", ["y"], ["x"]⟩]).deg "x" ["y"] ∈
      (buildGraph [⟨"A", ["x"], ["y"]⟩, ⟨"B", ["y"], ["x"]⟩]).verts ∧
    (∀ w ∈ (buildGraph [⟨"A", ["x"], ["y"]⟩, ⟨"B", ["y"], ["x"]⟩]).verts,
      (buildGraph [⟨"A", ["x"], ["y"]⟩, ⟨"B", ["y"], ["x"]⟩]).deg
          (minKey (buildGraph [⟨"A", ["x"], ["y"]⟩, ⟨"B", ["y"], ["x"]⟩]).deg "x" ["y"]) ≤
        (buildGraph [⟨"A", ["x"], ["y"]⟩, ⟨"B", ["y"], ["x"]⟩]).deg w) ∧
    (buildGraph [⟨"A", ["x"], ["y"]⟩, ⟨"B", ["y"], ["x"]⟩]).verts.find? (fun w =>
        decide ((buildGraph [⟨"A", ["x"], ["y"]⟩, ⟨"B", ["y"], ["x"]⟩]).deg w =
          (buildGraph [⟨"A", ["x"], ["y"]⟩, ⟨"B", ["y"], ["x"]⟩]).deg
            (minKey (buildGraph [⟨"A", ["x"], ["y"]⟩, ⟨"B", ["y"], ["x"]⟩]).deg "x" ["y"]))) =
      some (minKey (buildGraph [⟨"A", ["x"], ["y"]⟩, ⟨"B", ["y"], ["x"]⟩]).deg "x" ["y"]) :=
  detect_cycle_forced_min [⟨"A", ["x"], ["y"]⟩, ⟨"B", ["y"], ["x"]⟩] "x" ["y"]
    (by rfl) (by rfl)

lemma sum_map_update {l : List String} (hn : l.Nodup) {u : String} (hu : u ∈ l)
    (f g : String → Nat) (hfg : ∀ w ∈ l, w ≠ u → g w = f w) :
    (l.map g).sum + f u = (l.map f).sum + g u := by
  induction l with
  | nil => exact absurd hu (by simp)
  | cons x xs ih =>
    rcases List.mem_cons.mp hu with rfl | hu'
    · have hxs : ∀ w ∈ xs, g w = f w := by
        intro w hw
        exact hfg w (by simp [hw]) (fun he => (List.nodup_cons.mp hn).1 (he ▸ hw))
      have : xs.map g = xs.map f := List.map_congr_left hxs
      simp only [List.map_cons, List.sum_cons, this]
      omega
    · have hx : g x = f x := hfg x (by simp) (fun he => (List.nodup_cons.mp hn).1 (he ▸ hu'))
      have := ih (List.nodup_cons.mp hn).2 hu' (fun w hw hne => hfg w (by simp [hw]) hne)
      simp only [List.map_cons, List.sum_cons, hx]
      omega

lemma map_sum_add (l : List String) (f g : String → Nat) :
    (l.map (fun v => f v + g v)).sum = (l.map f).sum + (l.map g).sum := by
  induction l with
  | nil => simp
  | cons a as ih =>
    simp only [List.map_cons, List.sum_cons, ih]
    omega

lemma sum_indicator_one : ∀ {verts : List String}, verts.Nodup → ∀ {x : String}, x ∈ verts →
    (verts.map (fun v => if v = x then (1 : Nat) else 0)).sum = 1 := by
  intro verts
  induction verts with
  | nil => intro _ x hx; exact absurd hx (by simp)
  | cons a as ih =>
    intro hn x hx
    rcases List.mem_cons.mp hx with rfl | hx'
    · have hz : ∀ v ∈ as, (if v = x then (1 : Nat) else 0) = 0 := by
        intro v hv
        have : v ≠ x := fun he => (List.nodup_cons.mp hn).1 (he ▸ hv)
        simp [this]
      simp only [List.map_cons, List.sum_cons, if_pos rfl]
      rw [List.map_congr_left hz]
      simp
    · have ha : ¬ a = x := fun he => (List.nodup_cons.mp hn).1 (he ▸ hx')
      simp only [List.map_cons, List.sum_cons, if_neg ha]
      rw [ih (List.nodup_cons.mp hn).2 hx']

lemma sum_count_eq_length {verts : List String} (hn : verts.Nodup) :
    ∀ {l : List String}, (∀ x ∈ l, x ∈ verts) →
    (verts.map (fun v => l.count v)).sum = l.length := by
  intro l
  induction l with
  | nil => intro _; simp
  | cons x xs ih =>
    intro hl
    have hx : x ∈ verts := hl x (by simp)
    have hxs := ih (fun y hy => hl y (by simp [hy]))
    have hsplit : (verts.map (fun v => (x :: xs).count v)).sum =
        (verts.map (fun v => xs.count v + if v = x then 1 else 0)).sum := by
      congr 1
      refine List.map_congr_left ?_
      intro v _
      rw [List.count_cons]
      by_cases hv : v = x
      · simp [hv]
      · rw [if_neg (by simpa using fun he => hv he.symm), if_neg hv]
    rw [hsplit, map_sum_add, hxs, sum_indicator_one hn hx]
    simp

lemma subset_perm_append {order verts : List String} (ho : order.Nodup)
    (hsub : ∀ x ∈ order, x ∈ verts) :
    ∃ t, verts.Perm (order ++ t) := by
  have hsp : order.Subperm verts := List.subperm_of_subset ho hsub
  obtain ⟨l, hlp, hls⟩ := hsp
  obtain ⟨t, ht⟩ := hls.exists_perm_append
  exact ⟨t, ht.trans (hlp.append_right t)⟩

lemma sum_split_of_subset {order verts : List String} (ho : order.Nodup)
    (hsub : ∀ x ∈ order, x ∈ verts) (f : String → Nat) :
    ∃ t, verts.Perm (order ++ t) ∧
      (verts.map f).sum = (order.map f).sum + (t.map f).sum := by
  obtain ⟨t, hp⟩ := subset_perm_append ho hsub
  refine ⟨t, hp, ?_⟩
  rw [List.Perm.sum_eq (hp.map f), List.map_append, List.sum_append]

lemma count_zero_of_sum_eq {order verts : List String} (ho : order.Nodup)
    (hsub : ∀ x ∈ order, x ∈ verts) (f : String → Nat)
    (heq : (verts.map f).sum = (order.map f).sum) :
    ∀ w ∈ verts, w ∉ order → f w = 0 := by
  obtain ⟨t, hp, hs⟩ := sum_split_of_subset ho hsub f
  have ht : (t.map f).sum = 0 := by omega
  intro w hw hwo
  have : w ∈ order ++ t := hp.mem_iff.mp hw
  rcases List.mem_append.mp this with h | h
  · exact absurd h hwo
  · have := List.sum_eq_zero_iff.mp ht (f w) (List.mem_map_of_mem f h)
    exact this

lemma sum_le_of_subset {order verts : List String} (ho : order.Nodup)
    (hsub : ∀ x ∈ order, x ∈ verts) (f : String → Nat) :
    (order.map f).sum ≤ (verts.map f).sum := by
  obtain ⟨t, hp, hs⟩ := sum_split_of_subset ho hsub f
  omega



lemma phase1_fold_pkgs : ∀ (bs : List String) (s : GState),
    s.verts.Nodup → (∀ v, s.deg v = 0) → (∀ v, s.adj v = []) →
    ((bs.foldl addVert s).verts.Nodup ∧ (∀ v, (bs.foldl addVert s).deg v = 0) ∧
     (∀ v, (bs.foldl addVert s).adj v = []) ∧
     (∀ v, v ∈ (bs.foldl addVert s).verts ↔ (v ∈ s.verts ∨ v ∈ bs))) := by
  intro bs
  induction bs with
  | nil => intro s h1 h2 h3; exact ⟨h1, h2, h3, by simp⟩
  | cons b rest ih =>
    intro s h1 h2 h3
    have hstep : (addVert s b).verts.Nodup ∧ (∀ v, (addVert s b).deg v = 0) ∧
        (∀ v, (addVert s b).adj v = []) ∧
        (∀ v, v ∈ (addVert s b).verts ↔ (v ∈ s.verts ∨ v = b)) := by
      unfold addVert
      refine ⟨?_, ?_, ?_, ?_⟩
      · by_cases hb : b ∈ s.verts
        · simpa [hb] using h1
        · rw [if_neg hb]
          simp [List.nodup_append, h1, hb]
      · intro v
        by_cases hv : v = b <;> simp [hv, h2]
      · intro v
        by_cases hv : v = b <;> simp [hv, h3]
      · intro v
        by_cases hb : b ∈ s.verts
        · simp only [hb, if_true]
          constructor
          · exact fun h => Or.inl h
          · rintro (h | rfl)
            · exact h
            · exact hb
        · simp [hb, List.mem_append]
    obtain ⟨s1, s2, s3, s4⟩ := hstep
    obtain ⟨r1, r2, r3, r4⟩ := ih (addVert s b) s1 s2 s3
    refine ⟨r1, r2, r3, ?_⟩
    intro v
    rw [List.foldl_cons, r4 v, s4 v]
    simp only [List.mem_cons]
    tauto

lemma phase1_fold_descs : ∀ (ds : List Desc) (s : GState),
    s.verts.Nodup → (∀ v, s.deg v = 0) → (∀ v, s.adj v = []) →
    ((ds.foldl (fun s d => d.packages.foldl addVert s) s).verts.Nodup ∧
     (∀ v, (ds.foldl (fun s d => d.packages.foldl addVert s) s).deg v = 0) ∧
     (∀ v, (ds.foldl (fun s d => d.packages.foldl addVert s) s).adj v = []) ∧
     (∀ v, v ∈ (ds.foldl (fun s d => d.packages.foldl addVert s) s).verts ↔
        (v ∈ s.verts ∨ ∃ d ∈ ds, v ∈ d.packages))) := by
  intro ds
  induction ds with
  | nil => intro s h1 h2 h3; exact ⟨h1, h2, h3, by simp⟩
  | cons d rest ih =>
    intro s h1 h2 h3
    obtain ⟨s1, s2, s3, s4⟩ := phase1_fold_pkgs d.packages s h1 h2 h3
    obtain ⟨r1, r2, r3, r4⟩ := ih (d.packages.foldl addVert s) s1 s2 s3
    refine ⟨r1, r2, r3, ?_⟩
    intro v
    rw [List.foldl_cons, r4 v, s4 v]
    constructor
    · rintro ((h | h) | ⟨d', hd', hp⟩)
      · exact Or.inl h
      · exact Or.inr ⟨d, by simp, h⟩
      · exact Or.inr ⟨d', by simp [hd'], hp⟩
    · rintro (h | ⟨d', hd', hp⟩)
      · exact Or.inl (Or.inl h)
      · rcases List.mem_cons.mp hd' with rfl | hd''
        · exact Or.inl (Or.inr hp)
        · exact Or.inr ⟨d', hd'', hp⟩



lemma addEdge_inv {V0 : List String} {EL : List (String × String)} {s : GState}
    (inv : Phase2Inv V0 EL s) (dep : String) {bin : String} (hbin : bin ∈ V0) :
    Phase2Inv V0 (EL ++ [(dep, bin)]) (addEdge s dep bin) := by
  obtain ⟨hnd, hsub, hvi, hac, hde, hnv, hls⟩ := inv
  have hbinv : bin ∈ s.verts := hsub bin hbin
  have hverts' : (addEdge s dep bin).verts =
      if dep ∈ s.verts then s.verts else s.verts ++ [dep] := rfl
  have hadj' : ∀ u, (addEdge s dep bin).adj u =
      if u = dep then s.adj dep ++ [bin] else s.adj u := fun _ => rfl
  have hdeg' : ∀ v, (addEdge s dep bin).deg v =
      if v = bin then s.deg bin + 1 else s.deg v := fun _ => rfl
  have hdepv' : dep ∈ (addEdge s dep bin).verts := by
    rw [hverts']
    by_cases hd : dep ∈ s.verts <;> simp [hd]
  have hsubv : ∀ v ∈ s.verts, v ∈ (addEdge s dep bin).verts := by
    intro v hv
    rw [hverts']
    by_cases hd : dep ∈ s.verts <;> simp [hd, hv]
  have hdepcnt : ∀ v, ((addEdge s dep bin).adj dep).count v =
      (s.adj dep).count v + if v = bin then 1 else 0 := by
    intro v
    rw [hadj', if_pos rfl, List.count_append]
    congr 1
    simp only [List.count_cons, List.count_nil, Nat.zero_add]
    by_cases hv : v = bin
    · subst hv
      simp
    · have h1 : ¬ (bin == v) = true := by simpa using fun he => hv he.symm
      simp [h1, hv]
  have hothercnt : ∀ u v, u ≠ dep →
      ((addEdge s dep bin).adj u).count v = (s.adj u).count v := by
    intro u v hu
    rw [hadj', if_neg hu]
  have hcount' : ∀ u w, ((addEdge s dep bin).adj u).count w =
      (EL ++ [(dep, bin)]).count (u, w) := by
    intro u w
    rw [List.count_append]
    by_cases hu : u = dep
    · subst hu
      rw [hdepcnt, hac]
      congr 1
      simp only [List.count_cons, List.count_nil, Nat.zero_add]
      by_cases hw : w = bin
      · subst hw
        simp
      · have h2 : ¬ ((u, bin) == (u, w)) = true := by simpa using fun he => hw he.symm
        simp [h2, hw]
    · rw [hothercnt u w hu, hac]
      have : ¬ ((dep, bin) == (u, w)) = true := by
        simp only [beq_iff_eq, Prod.mk.injEq, not_and]
        intro hd
        exact absurd hd.symm hu
      simp [List.count_cons, this]
  have hsum' : ∀ v, ((addEdge s dep bin).verts.map
        (fun u => ((addEdge s dep bin).adj u).count v)).sum =
      (s.verts.map (fun u => (s.adj u).count v)).sum + if v = bin then 1 else 0 := by
    intro v
    by_cases hd : dep ∈ s.verts
    · rw [hverts', if_pos hd]
      have hsum := sum_map_update hnd hd
        (fun u => (s.adj u).count v) (fun u => ((addEdge s dep bin).adj u).count v)
        (fun w _ hne => hothercnt w v hne)
      simp only [] at hsum
      have := hdepcnt v
      omega
    · rw [hverts', if_neg hd]
      rw [List.map_append, List.sum_append]
      have hmap : s.verts.map (fun u => ((addEdge s dep bin).adj u).count v) =
          s.verts.map (fun u => (s.adj u).count v) := by
        refine List.map_congr_left ?_
        intro u hu
        exact hothercnt u v (fun he => hd (he ▸ hu))
      rw [hmap]
      have hnil : (s.adj dep).count v = 0 := by
        rw [(hnv dep hd).1]
        simp
      have := hdepcnt v
      simp only [List.map_cons, List.map_nil, List.sum_cons, List.sum_nil]
      omega
  have hlen' : ((addEdge s dep bin).verts.map
        (fun u => ((addEdge s dep bin).adj u).length)).sum =
      (s.verts.map (fun u => (s.adj u).length)).sum + 1 := by
    have hdeplen : ((addEdge s dep bin).adj dep).length = (s.adj dep).length + 1 := by
      rw [hadj', if_pos rfl]
      simp
    have hotherlen : ∀ u, u ≠ dep →
        ((addEdge s dep bin).adj u).length = (s.adj u).length := by
      intro u hu
      rw [hadj', if_neg hu]
    by_cases hd : dep ∈ s.verts
    · rw [hverts', if_pos hd]
      have hsum := sum_map_update hnd hd
        (fun u => (s.adj u).length) (fun u => ((addEdge s dep bin).adj u).length)
        (fun w _ hne => hotherlen w hne)
      simp only [] at hsum
      omega
    · rw [hverts', if_neg hd]
      rw [List.map_append, List.sum_append]
      have hmap : s.verts.map (fun u => ((addEdge s dep bin).adj u).length) =
          s.verts.map (fun u => (s.adj u).length) := by
        refine List.map_congr_left ?_
        intro u hu
        exact hotherlen u (fun he => hd (he ▸ hu))
      rw [hmap]
      have hnil : (s.adj dep).length = 0 := by
        rw [(hnv dep hd).1]
        rfl
      simp only [List.map_cons, List.map_nil, List.sum_cons, List.sum_nil]
      omega
  refine ⟨?_, ?_, ?_, hcount', ?_, ?_, ?_⟩
  · rw [hverts']
    by_cases hd : dep ∈ s.verts
    · simpa [hd] using hnd
    · rw [if_neg hd]
      simp [List.nodup_append, hnd, hd]
  · intro v hv
    exact hsubv v (hsub v hv)
  · intro v
    have hR : (v ∈ V0 ∨ ∃ p ∈ EL ++ [(dep, bin)], p.1 = v) ↔
        ((v ∈ V0 ∨ ∃ p ∈ EL, p.1 = v) ∨ v = dep) := by
      constructor
      · rintro (h | ⟨p, hp, hp1⟩)
        · exact Or.inl (Or.inl h)
        · rcases List.mem_append.mp hp with hp' | hp'
          · exact Or.inl (Or.inr ⟨p, hp', hp1⟩)
          · simp only [List.mem_singleton] at hp'
            subst hp'
            exact Or.inr hp1.symm
      · rintro ((h | ⟨p, hp, hp1⟩) | rfl)
        · exact Or.inl h
        · exact Or.inr ⟨p, by simp [hp], hp1⟩
        · exact Or.inr ⟨(v, bin), by simp, rfl⟩
    rw [hR, ← hvi, hverts']
    by_cases hd : dep ∈ s.verts
    · rw [if_pos hd]
      constructor
      · exact fun h => Or.inl h
      · rintro (h | rfl)
        · exact h
        · exact hd
    · rw [if_neg hd]
      simp [List.mem_append]
  · intro v
    rw [hdeg', hsum']
    by_cases hv : v = bin
    · subst hv
      rw [if_pos rfl, if_pos rfl, hde v]
      push_cast
      ring
    · rw [if_neg hv, if_neg hv, hde v]
      simp
  · intro u hu
    have hu' : u ∉ s.verts := fun h => hu (hsubv u h)
    have hud : u ≠ dep := fun he => hu (he ▸ hdepv')
    have hub : u ≠ bin := fun he => hu (he ▸ hsubv bin hbinv)
    refine ⟨?_, ?_⟩
    · rw [hadj', if_neg hud]
      exact (hnv u hu').1
    · rw [hdeg', if_neg hub]
      exact (hnv u hu').2
  · rw [hlen', hls, List.length_append]
    rfl



lemma phase2_fold_deps {V0 : List String} (bin : String) (hbin : bin ∈ V0) :
    ∀ (deps : List String) (EL : List (String × String)) (s : GState),
    Phase2Inv V0 EL s →
    Phase2Inv V0 (EL ++ deps.map (fun dep => (dep, bin)))
      (deps.foldl (fun s dep => addEdge s dep bin) s) := by
  intro deps
  induction deps with
  | nil => intro EL s inv; simpa using inv
  | cons dep rest ih =>
    intro EL s inv
    have h1 := addEdge_inv inv dep hbin
    have h2 := ih (EL ++ [(dep, bin)]) (addEdge s dep bin) h1
    rw [List.foldl_cons]
    simpa [List.append_assoc] using h2

lemma phase2_fold_pkgs {V0 : List String} (deps : List String) :
    ∀ (pkgs : List String) (EL : List (String × String)) (s : GState),
    (∀ b ∈ pkgs, b ∈ V0) →
    Phase2Inv V0 EL s →
    Phase2Inv V0 (EL ++ pkgs.bind (fun b => deps.map (fun dep => (dep, b))))
      (pkgs.foldl (fun s b => deps.foldl (fun s dep => addEdge s dep b) s) s) := by
  intro pkgs
  induction pkgs with
  | nil => intro EL s _ inv; simpa using inv
  | cons b rest ih =>
    intro EL s hb inv
    have h1 := phase2_fold_deps b (hb b (by simp)) deps EL s inv
    have h2 := ih (EL ++ deps.map (fun dep => (dep, b)))
      (deps.foldl (fun s dep => addEdge s dep b) s)
      (fun x hx => hb x (by simp [hx])) h1
    rw [List.foldl_cons]
    simpa [List.append_assoc] using h2

lemma phase2_fold_descs {V0 : List String} :
    ∀ (ds : List Desc) (EL : List (String × String)) (s : GState),
    (∀ d ∈ ds, ∀ b ∈ d.packages, b ∈ V0) →
    Phase2Inv V0 EL s →
    Phase2Inv V0 (EL ++ edgeList ds)
      (ds.foldl (fun s d =>
        d.packages.foldl (fun s b =>
          d.dependencies.foldl (fun s dep => addEdge s dep b) s) s) s) := by
  intro ds
  induction ds with
  | nil => intro EL s _ inv; simpa [edgeList] using inv
  | cons d rest ih =>
    intro EL s hb inv
    have h1 := phase2_fold_pkgs d.dependencies d.packages EL s (hb d (by simp)) inv
    have h2 := ih (EL ++ d.packages.bind (fun b => d.dependencies.map (fun dep => (dep, b))))
      _ (fun d' hd' => hb d' (by simp [hd'])) h1
    rw [List.foldl_cons]
    have he : edgeList (d :: rest) =
        d.packages.bind (fun b => d.dependencies.map (fun dep => (dep, b))) ++ edgeList rest := by
      unfold edgeList
      simp [List.cons_bind]
    rw [he]
    simpa [List.append_assoc] using h2

lemma buildGraph_ok (descs : List Desc) : GraphOK descs (buildGraph descs) := by
  have hph1 := phase1_fold_descs descs ⟨[], fun _ => [], fun _ => 0⟩
    (by simp) (fun _ => rfl) (fun _ => rfl)
  obtain ⟨h1, h2, h3, h4⟩ := hph1
  set s1 := descs.foldl (fun s d => d.packages.foldl addVert s)
    (⟨[], fun _ => [], fun _ => 0⟩ : GState) with hs1
  have hinv0 : Phase2Inv s1.verts [] s1 := by
    refine ⟨h1, fun v hv => hv, ?_, ?_, ?_, ?_, ?_⟩
    · intro v
      simp
    · intro u w
      rw [h3 u]
      simp
    · intro v
      rw [h2 v]
      have : s1.verts.map (fun u => (s1.adj u).count v) = s1.verts.map (fun _ => 0) := by
        refine List.map_congr_left ?_
        intro u _
        rw [h3 u]
        rfl
      rw [this]
      simp
    · intro u _
      exact ⟨h3 u, h2 u⟩
    · have : s1.verts.map (fun u => (s1.adj u).length) = s1.verts.map (fun _ => 0) := by
        refine List.map_congr_left ?_
        intro u _
        rw [h3 u]
        rfl
      rw [this]
      simp
  have hbins : ∀ d ∈ descs, ∀ b ∈ d.packages, b ∈ s1.verts := by
    intro d hd b hb
    rw [h4 b]
    exact Or.inr ⟨d, hd, hb⟩
  have hinv := phase2_fold_descs descs [] s1 hbins hinv0
  rw [List.nil_append] at hinv
  obtain ⟨g1, g2, g3, g4, g5, g6, g7⟩ := hinv
  have hbg : buildGraph descs =
      descs.foldl (fun s d =>
        d.packages.foldl (fun s b =>
          d.dependencies.foldl (fun s dep => addEdge s dep b) s) s) s1 := rfl
  refine ⟨?_, ?_, ?_, ?_, ?_, ?_⟩ <;> rw [hbg]
  · exact g1
  · intro v
    rw [g3 v]
    constructor
    · rintro (hv | h)
      · rw [h4 v] at hv
        rcases hv with hv | hv
        · exact absurd hv (by simp)
        · exact Or.inl hv
      · exact Or.inr h
    · rintro (⟨d, hd, hp⟩ | h)
      · left
        rw [h4 v]
        exact Or.inr ⟨d, hd, hp⟩
      · exact Or.inr h
  · exact g4
  · exact g5
  · exact g6
  · exact g7



lemma edgeList_mem {descs : List Desc} {u v : String} :
    (u, v) ∈ edgeList descs ↔ EdgeOf descs u v := by
  unfold edgeList EdgeOf
  simp only [List.mem_bind, List.mem_map, Prod.mk.injEq]
  constructor
  · rintro ⟨d, hd, b, hb, dep, hdep, rfl, rfl⟩
    exact ⟨d, hd, hdep, hb⟩
  · rintro ⟨d, hd, hdep, hb⟩
    exact ⟨d, hd, v, hb, u, hdep, rfl, rfl⟩

lemma bind_cons_eq {A B : Type} (a : A) (l : List A) (f : A -> List B) :
    (a :: l).bind f = f a ++ l.bind f := rfl

lemma numEdges_eq_length (descs : List Desc) :
    numEdges descs = (edgeList descs).length := by
  unfold numEdges edgeList
  induction descs with
  | nil => simp
  | cons d rest ih =>
    rw [bind_cons_eq, List.length_append, List.map_cons, List.sum_cons, ih]
    congr 1
    induction d.packages with
    | nil => simp
    | cons p ps ihp =>
      rw [bind_cons_eq, List.length_append, List.length_map, List.length_cons,
        Nat.succ_mul, ihp, Nat.add_comm]

lemma adj_mem_iff {descs : List Desc} (hok : GraphOK descs (buildGraph descs))
    {u w : String} : w ∈ (buildGraph descs).adj u ↔ EdgeOf descs u w := by
  rw [← edgeList_mem]
  constructor
  · intro h
    have := hok.adj_count u w
    have hpos : 0 < ((buildGraph descs).adj u).count w := List.count_pos_iff_mem.mpr h
    rw [this] at hpos
    exact List.count_pos_iff_mem.mp hpos
  · intro h
    have hpos : 0 < (edgeList descs).count (u, w) := List.count_pos_iff_mem.mpr h
    rw [← hok.adj_count u w] at hpos
    exact List.count_pos_iff_mem.mp hpos

lemma vert_iff_VertOf {descs : List Desc} (hok : GraphOK descs (buildGraph descs))
    (hpk : ∀ d ∈ descs, d.packages ≠ []) {v : String} :
    v ∈ (buildGraph descs).verts ↔ VertOf descs v := by
  rw [hok.vert_iff v]
  constructor
  · rintro (⟨d, hd, hp⟩ | ⟨p, hp, hp1⟩)
    · exact ⟨d, hd, Or.inl hp⟩
    · obtain ⟨u, w⟩ := p
      cases hp1
      obtain ⟨d, hd, hdep, hb⟩ := edgeList_mem.mp hp
      exact ⟨d, hd, Or.inr hdep⟩
  · rintro ⟨d, hd, hp | hdep⟩
    · exact Or.inl ⟨d, hd, hp⟩
    · right
      obtain ⟨b, hb⟩ := List.exists_mem_of_ne_nil d.packages (hpk d hd)
      exact ⟨(v, b), edgeList_mem.mpr ⟨d, hd, hdep, hb⟩, rfl⟩

lemma adj_target_vert {descs : List Desc} (hok : GraphOK descs (buildGraph descs))
    {u w : String} (h : w ∈ (buildGraph descs).adj u) : w ∈ (buildGraph descs).verts := by
  have := (adj_mem_iff hok).mp h
  obtain ⟨d, hd, _, hb⟩ := this
  rw [hok.vert_iff w]
  exact Or.inl ⟨d, hd, hb⟩

lemma adj_src_vert {descs : List Desc} (hok : GraphOK descs (buildGraph descs))
    {u w : String} (h : w ∈ (buildGraph descs).adj u) : u ∈ (buildGraph descs).verts := by
  have := (adj_mem_iff hok).mp h
  rw [hok.vert_iff u]
  right
  exact ⟨(u, w), edgeList_mem.mpr this, rfl⟩



lemma indexOf_append_left {a : String} : ∀ {l₁ : List String} (l₂ : List String),
    a ∈ l₁ → (l₁ ++ l₂).indexOf a = l₁.indexOf a := by
  intro l₁
  induction l₁ with
  | nil => intro l₂ h; exact absurd h (by simp)
  | cons x xs ih =>
    intro l₂ h
    by_cases hxa : x = a
    · simp [List.indexOf_cons, hxa]
    · have : a ∈ xs := by
        rcases List.mem_cons.mp h with h' | h'
        · exact absurd h'.symm hxa
        · exact h'
      simp [List.indexOf_cons, hxa, ih l₂ this]

lemma indexOf_append_right {a : String} : ∀ {l₁ : List String} (l₂ : List String),
    a ∉ l₁ → (l₁ ++ l₂).indexOf a = l₁.length + l₂.indexOf a := by
  intro l₁
  induction l₁ with
  | nil => intro l₂ _; simp
  | cons x xs ih =>
    intro l₂ h
    have hxa : ¬ x = a := fun he => h (by simp [he])
    have hxs : a ∉ xs := fun hm => h (by simp [hm])
    simp [List.indexOf_cons, hxa, ih l₂ hxs]
    omega

lemma indexOf_lt_len {a : String} : ∀ {l : List String}, a ∈ l → l.indexOf a < l.length := by
  intro l
  induction l with
  | nil => intro h; exact absurd h (by simp)
  | cons x xs ih =>
    intro h
    by_cases hxa : x = a
    · simp [List.indexOf_cons, hxa]
    · have : a ∈ xs := by
        rcases List.mem_cons.mp h with h' | h'
        · exact absurd h'.symm hxa
        · exact h'
      simp [List.indexOf_cons, hxa]
      exact ih this

lemma exists_fresh_pos {order verts : List String} (hvn : verts.Nodup) (ho : order.Nodup)
    (hsub : ∀ x ∈ order, x ∈ verts) (f : String → Nat)
    (hne : (verts.map f).sum ≠ (order.map f).sum) :
    ∃ u ∈ verts, u ∉ order ∧ 0 < f u := by
  obtain ⟨t, hp, hs⟩ := sum_split_of_subset ho hsub f
  have htn : (t.map f).sum ≠ 0 := by omega
  have : ∃ x ∈ t, f x ≠ 0 := by
    by_contra hall
    push_neg at hall
    exact htn (List.sum_eq_zero_iff.mpr (by
      intro n hn
      obtain ⟨x, hx, rfl⟩ := List.mem_map.mp hn
      exact hall x hx))
  obtain ⟨x, hx, hfx⟩ := this
  have hxv : x ∈ verts := hp.mem_iff.mpr (List.mem_append.mpr (Or.inr hx))
  have hnd : (order ++ t).Nodup := hp.nodup hvn
  have hxo : x ∉ order := fun hxo => (List.nodup_append.mp hnd).2.2 hxo hx
  exact ⟨x, hxv, hxo, Nat.pos_of_ne_zero hfx⟩

lemma stepInv_entry {adj : String → List String} {verts : List String}
    (hclose : ∀ u w, w ∈ adj u → u ∈ verts ∧ w ∈ verts)
    {st : KState} {u : String} {q : List String}
    (hok : KahnOK adj verts st) (hq : st.queue = u :: q) :
    StepInv adj verts (st.order ++ [u]) (adj u) ⟨q, st.order ++ [u], st.deg⟩ := by
  have ho_nodup : st.order.Nodup := (List.nodup_append.mp hok.nodup).1
  have ho_sub : ∀ x ∈ st.order, x ∈ verts :=
    fun x hx => hok.mem_vert x (List.mem_append.mpr (Or.inl hx))
  have hslack : ∀ x ∈ verts, st.deg x = 0 →
      ∀ w ∈ verts, w ∉ st.order → (adj w).count x = 0 := by
    intro x hx hdx w hw hwo
    have hT := hok.deg_acc x hx
    have hZ : ((verts.map (fun w' => (adj w').count x)).sum : Int) =
        ((st.order.map (fun w' => (adj w').count x)).sum : Int) := by omega
    have hnat : (verts.map (fun w' => (adj w').count x)).sum =
        (st.order.map (fun w' => (adj w').count x)).sum := by exact_mod_cast hZ
    exact count_zero_of_sum_eq ho_nodup ho_sub _ hnat w hw hwo
  have hu_q : u ∈ st.queue := by rw [hq]; simp
  have hdisj := (List.nodup_append.mp hok.nodup).2.2
  have hu_no : u ∉ st.order := fun h => hdisj h hu_q
  have hu_v : u ∈ verts := hok.mem_vert u (List.mem_append.mpr (Or.inr hu_q))
  have hdu : st.deg u = 0 := hok.queue_zero u hu_q
  have hreshape : (st.order ++ [u]) ++ q = st.order ++ st.queue := by
    rw [List.append_assoc, List.singleton_append, hq]
  refine ⟨rfl, ?_, ?_, ?_, ?_, ?_, ?_, ?_, ?_⟩
  · show ((st.order ++ [u]) ++ q).Nodup
    rw [hreshape]; exact hok.nodup
  · show ∀ v ∈ (st.order ++ [u]) ++ q, v ∈ verts
    rw [hreshape]; exact hok.mem_vert
  · intro v hv
    show st.deg v = _
    rw [hok.deg_acc v hv, List.map_append, List.sum_append, List.map_singleton,
      List.sum_singleton]
    push_cast
    ring
  · intro v hv
    show st.deg v = 0 ∧ (adj u).count v = 0
    have hvq : v ∈ st.queue := by rw [hq]; exact List.mem_cons_of_mem u hv
    have hdv : st.deg v = 0 := hok.queue_zero v hvq
    have hvv : v ∈ verts := hok.mem_vert v (List.mem_append.mpr (Or.inr hvq))
    exact ⟨hdv, hslack v hvv hdv u hu_v hu_no⟩
  · intro v hv hdv _
    show v ∈ (st.order ++ [u]) ++ q
    rw [hreshape]
    exact hok.zero_seen v hv hdv
  · intro v hv
    rcases List.mem_append.mp hv with hvo | hvu
    · refine ⟨hok.order_zero v hvo, hok.order_closed v hvo u hu_v hu_no⟩
    · have : v = u := by simpa using hvu
      subst this
      exact ⟨hdu, hslack v hu_v hdu v hu_v hu_no⟩
  · intro v hv w hw hwo
    have hwo1 : w ∉ st.order := fun h => hwo (List.mem_append.mpr (Or.inl h))
    rcases List.mem_append.mp hv with hvo | hvu
    · exact hok.order_closed v hvo w hw hwo1
    · have : v = u := by simpa using hvu
      subst this
      exact hslack v hu_v hdu w hw hwo1
  · intro v hv u' hvadj
    rcases List.mem_append.mp hv with hvo | hvu
    · obtain ⟨hu', hidx⟩ := hok.order_pos v hvo u' hvadj
      refine ⟨List.mem_append.mpr (Or.inl hu'), ?_⟩
      rw [indexOf_append_left [u] hu', indexOf_append_left [u] hvo]
      exact hidx
    · have : v = u := by simpa using hvu
      subst this
      have hu'v : u' ∈ verts := (hclose u' v hvadj).1
      have hu'o : u' ∈ st.order := by
        by_contra hno
        have := hslack v hu_v hdu u' hu'v hno
        rw [List.count_eq_zero] at this
        exact this hvadj
      refine ⟨List.mem_append.mpr (Or.inl hu'o), ?_⟩
      rw [indexOf_append_left [v] hu'o, indexOf_append_right [v] hu_no]
      have h1 : st.order.indexOf u' < st.order.length := indexOf_lt_len hu'o
      have h2 : ([v] : List String).indexOf v = 0 := by simp
      omega



lemma stepInv_step {adj : String → List String} {verts : List String}
    {order1 : List String} {v₀ : String} {r : List String} {t : KState}
    (hinv : StepInv adj verts order1 (v₀ :: r) t) (hv₀ : v₀ ∈ verts) :
    StepInv adj verts order1 r
      { queue := if t.deg v₀ - 1 = 0 then t.queue ++ [v₀] else t.queue
        order := t.order
        deg := fun w => if w = v₀ then t.deg v₀ - 1 else t.deg w } := by
  have horder_nodup : order1.Nodup := (List.nodup_append.mp hinv.nodup).1
  have hsub : ∀ x ∈ order1, x ∈ verts :=
    fun x hx => hinv.mem_vert x (List.mem_append.mpr (Or.inl hx))
  have hTO := sum_le_of_subset horder_nodup hsub (fun w => (adj w).count v₀)
  have hd₀ := hinv.deg_acc v₀ hv₀
  rw [List.count_cons_self] at hd₀
  have hv₀_o : v₀ ∉ order1 := by
    intro h
    have := (hinv.order_zero v₀ h).2
    rw [List.count_cons_self] at this
    omega
  have hv₀_q : v₀ ∉ t.queue := by
    intro h
    have := (hinv.queue_zero v₀ h).2
    rw [List.count_cons_self] at this
    omega
  have hv₀_oq : v₀ ∉ order1 ++ t.queue := by
    intro h
    rcases List.mem_append.mp h with h | h
    · exact hv₀_o h
    · exact hv₀_q h
  have hrz : t.deg v₀ - 1 = 0 → r.count v₀ = 0 := by
    intro hz
    omega
  refine ⟨hinv.ord, ?_, ?_, ?_, ?_, ?_, ?_, ?_, ?_⟩
  · show (order1 ++ if t.deg v₀ - 1 = 0 then t.queue ++ [v₀] else t.queue).Nodup
    by_cases hz : t.deg v₀ - 1 = 0
    · rw [if_pos hz, ← List.append_assoc]
      rw [List.nodup_append]
      refine ⟨hinv.nodup, List.nodup_singleton v₀, ?_⟩
      intro a ha ha'
      have : a = v₀ := by simpa using ha'
      exact hv₀_oq (this ▸ ha)
    · rw [if_neg hz]; exact hinv.nodup
  · intro v hv
    by_cases hz : t.deg v₀ - 1 = 0
    · rw [if_pos hz, ← List.append_assoc] at hv
      rcases List.mem_append.mp hv with h | h
      · exact hinv.mem_vert v h
      · have : v = v₀ := by simpa using h
        exact this ▸ hv₀
    · rw [if_neg hz] at hv
      exact hinv.mem_vert v hv
  · intro v hv
    show (if v = v₀ then t.deg v₀ - 1 else t.deg v) = _
    by_cases hvv : v = v₀
    · subst hvv
      rw [if_pos rfl, hd₀]
      push_cast
      ring
    · rw [if_neg hvv, hinv.deg_acc v hv, List.count_cons_of_ne hvv]
  · intro v hv
    by_cases hz : t.deg v₀ - 1 = 0
    · rw [if_pos hz] at hv
      rcases List.mem_append.mp hv with h | h
      · obtain ⟨hd, hc⟩ := hinv.queue_zero v h
        have hvne : v ≠ v₀ := fun he => hv₀_q (he ▸ h)
        rw [List.count_cons_of_ne hvne] at hc
        exact ⟨by show (if v = v₀ then _ else _) = 0; rw [if_neg hvne]; exact hd, hc⟩
      · have hvv : v = v₀ := by simpa using h
        subst hvv
        exact ⟨by show (if v = v then _ else _) = 0; rw [if_pos rfl]; exact hz, hrz hz⟩
    · rw [if_neg hz] at hv
      obtain ⟨hd, hc⟩ := hinv.queue_zero v hv
      have hvne : v ≠ v₀ := fun he => hv₀_q (he ▸ hv)
      rw [List.count_cons_of_ne hvne] at hc
      exact ⟨by show (if v = v₀ then _ else _) = 0; rw [if_neg hvne]; exact hd, hc⟩
  · intro v hv hdeg hcnt
    by_cases hvv : v = v₀
    · subst hvv
      have hz : t.deg v - 1 = 0 := by
        have h0 : (if v = v then t.deg v - 1 else t.deg v) = 0 := hdeg
        rw [if_pos rfl] at h0
        exact h0
      rw [if_pos hz]
      exact List.mem_append.mpr (Or.inr (List.mem_append.mpr (Or.inr (by simp))))
    · have hdeg' : t.deg v = 0 := by
        have h0 : (if v = v₀ then t.deg v₀ - 1 else t.deg v) = 0 := hdeg
        rw [if_neg hvv] at h0
        exact h0
      have hcnt' : (v₀ :: r).count v = 0 := by
        rw [List.count_cons_of_ne hvv]; exact hcnt
      have := hinv.zero_seen v hv hdeg' hcnt'
      rcases List.mem_append.mp this with h | h
      · exact List.mem_append.mpr (Or.inl h)
      · refine List.mem_append.mpr (Or.inr ?_)
        by_cases hz : t.deg v₀ - 1 = 0
        · rw [if_pos hz]; exact List.mem_append.mpr (Or.inl h)
        · rw [if_neg hz]; exact h
  · intro v hv
    obtain ⟨hd, hc⟩ := hinv.order_zero v hv
    have hvne : v ≠ v₀ := fun he => hv₀_o (he ▸ hv)
    rw [List.count_cons_of_ne hvne] at hc
    exact ⟨by show (if v = v₀ then _ else _) = 0; rw [if_neg hvne]; exact hd, hc⟩
  · exact hinv.order_closed
  · exact hinv.order_pos

lemma stepInv_fold {adj : String → List String} {verts : List String}
    {order1 : List String} :
    ∀ (r : List String) (t : KState), StepInv adj verts order1 r t →
    (∀ w ∈ r, w ∈ verts) →
    StepInv adj verts order1 []
      (r.foldl (fun s v =>
        let d := s.deg v - 1
        { queue := if d = 0 then s.queue ++ [v] else s.queue
          order := s.order
          deg := fun w => if w = v then d else s.deg w }) t) := by
  intro r
  induction r with
  | nil => intro t h _; exact h
  | cons v₀ rs ih =>
    intro t h hw
    rw [List.foldl_cons]
    exact ih _ (stepInv_step h (hw v₀ (by simp))) (fun w hw' => hw w (by simp [hw']))

lemma stepInv_exit {adj : String → List String} {verts : List String}
    {order1 : List String} {t : KState}
    (hinv : StepInv adj verts order1 [] t) : KahnOK adj verts t := by
  have ho := hinv.ord
  refine ⟨?_, ?_, ?_, ?_, ?_, ?_, ?_, ?_⟩
  · rw [ho]; exact hinv.nodup
  · rw [ho]; exact hinv.mem_vert
  · intro v hv
    have := hinv.deg_acc v hv
    simpa [ho] using this
  · intro v hv
    exact (hinv.queue_zero v hv).1
  · intro v hv hd
    rw [ho]
    exact hinv.zero_seen v hv hd (by simp)
  · intro v hv
    rw [ho] at hv
    exact (hinv.order_zero v hv).1
  · intro v hv w hw hwo
    rw [ho] at hv hwo
    exact hinv.order_closed v hv w hw hwo
  · intro v hv u hvadj
    rw [ho] at hv ⊢
    exact hinv.order_pos v hv u hvadj

lemma kahnOK_iter {adj : String → List String} {verts : List String}
    (hclose : ∀ u w, w ∈ adj u → u ∈ verts ∧ w ∈ verts)
    {st : KState} {u : String} {q : List String}
    (hok : KahnOK adj verts st) (hq : st.queue = u :: q) :
    KahnOK adj verts (processTargets adj u ⟨q, st.order ++ [u], st.deg⟩) :=
  stepInv_exit (stepInv_fold (adj u) _ (stepInv_entry hclose hok hq)
    (fun w hw => (hclose u w hw).2))



lemma kahnMeasure_step {verts : List String} (hvn : verts.Nodup) {t : KState} {v₀ : String}
    (hv₀ : v₀ ∈ verts) :
    kahnMeasure verts
      { queue := if t.deg v₀ - 1 = 0 then t.queue ++ [v₀] else t.queue
        order := t.order
        deg := fun w => if w = v₀ then t.deg v₀ - 1 else t.deg w } ≤
    kahnMeasure verts t := by
  show (if t.deg v₀ - 1 = 0 then t.queue ++ [v₀] else t.queue).length +
      (verts.map (fun v => (if v = v₀ then t.deg v₀ - 1 else t.deg v).toNat)).sum ≤
    t.queue.length + (verts.map (fun v => (t.deg v).toNat)).sum
  have hupdate := sum_map_update hvn hv₀ (fun v => (t.deg v).toNat)
    (fun v => (if v = v₀ then t.deg v₀ - 1 else t.deg v).toNat)
    (fun w _ hw => by
      show (if w = v₀ then t.deg v₀ - 1 else t.deg w).toNat = (t.deg w).toNat
      rw [if_neg hw])
  simp only [] at hupdate
  rw [if_true] at hupdate
  by_cases hz : t.deg v₀ - 1 = 0
  · rw [if_pos hz, List.length_append]
    simp only [List.length_singleton]
    omega
  · rw [if_neg hz]
    omega

lemma kahnMeasure_fold {verts : List String} (hvn : verts.Nodup) :
    ∀ (r : List String) (t : KState), (∀ w ∈ r, w ∈ verts) →
    kahnMeasure verts
      (r.foldl (fun s v =>
        let d := s.deg v - 1
        { queue := if d = 0 then s.queue ++ [v] else s.queue
          order := s.order
          deg := fun w => if w = v then d else s.deg w }) t) ≤
    kahnMeasure verts t := by
  intro r
  induction r with
  | nil => intro t _; exact le_refl _
  | cons v₀ rs ih =>
    intro t hw
    rw [List.foldl_cons]
    exact le_trans (ih _ (fun w hw' => hw w (by simp [hw'])))
      (kahnMeasure_step hvn (hw v₀ (by simp)))

lemma kahnLoop_ok {adj : String → List String} {verts : List String}
    (hvn : verts.Nodup)
    (hclose : ∀ u w, w ∈ adj u → u ∈ verts ∧ w ∈ verts) :
    ∀ (fuel : Nat) (st : KState), KahnOK adj verts st →
      kahnMeasure verts st ≤ fuel →
      KahnOK adj verts (kahnLoop adj fuel st) ∧ (kahnLoop adj fuel st).queue = [] := by
  intro fuel
  induction fuel with
  | zero =>
    intro st hok hm
    have hlen : st.queue.length = 0 := by
      unfold kahnMeasure at hm
      omega
    exact ⟨hok, List.eq_nil_of_length_eq_zero hlen⟩
  | succ fuel ih =>
    intro st hok hm
    have hunf : kahnLoop adj (fuel + 1) st =
        (match st.queue with
          | [] => st
          | u :: q => kahnLoop adj fuel (processTargets adj u ⟨q, st.order ++ [u], st.deg⟩)) :=
      rfl
    cases hq : st.queue with
    | nil =>
      rw [hunf, hq]
      exact ⟨hok, hq⟩
    | cons u q =>
      rw [hunf, hq]
      have h1 : kahnMeasure verts (processTargets adj u ⟨q, st.order ++ [u], st.deg⟩) ≤
          kahnMeasure verts (⟨q, st.order ++ [u], st.deg⟩ : KState) :=
        kahnMeasure_fold hvn (adj u) _ (fun w hw => (hclose u w hw).2)
      have h2 : kahnMeasure verts (⟨q, st.order ++ [u], st.deg⟩ : KState) + 1 =
          kahnMeasure verts st := by
        show q.length + (verts.map (fun v => (st.deg v).toNat)).sum + 1 =
          st.queue.length + (verts.map (fun v => (st.deg v).toNat)).sum
        rw [hq]
        simp only [List.length_cons]
        omega
      exact ih _ (kahnOK_iter hclose hok hq) (by omega)



lemma sum_sum_comm (l₁ l₂ : List String) (f : String → String → Nat) :
    (l₁.map (fun v => (l₂.map (fun u => f u v)).sum)).sum =
    (l₂.map (fun u => (l₁.map (fun v => f u v)).sum)).sum := by
  induction l₁ with
  | nil =>
    simp only [List.map_nil, List.sum_nil]
    symm
    refine List.sum_eq_zero ?_
    intro n hn
    obtain ⟨u, hu, rfl⟩ := List.mem_map.mp hn
    rfl
  | cons v vs ih =>
    simp only [List.map_cons, List.sum_cons, ih]
    rw [← map_sum_add l₂ (fun u => f u v) (fun u => (vs.map (fun v' => f u v')).sum)]

lemma kahnOK_init {adj : String → List String} {verts : List String}
    {deg : String → Int} (hvn : verts.Nodup)
    (hdeg : ∀ v, deg v = ((verts.map (fun u => (adj u).count v)).sum : Int)) :
    KahnOK adj verts
      ⟨verts.filter (fun v => decide (deg v = 0)), [], deg⟩ := by
  refine ⟨?_, ?_, ?_, ?_, ?_, ?_, ?_, ?_⟩
  · show (([] : List String) ++ _).Nodup
    rw [List.nil_append]
    exact hvn.filter _
  · intro v hv
    rw [List.nil_append] at hv
    exact (List.mem_filter.mp hv).1
  · intro v hv
    show deg v = _
    rw [hdeg v]
    simp
  · intro v hv
    have := (List.mem_filter.mp hv).2
    simpa using this
  · intro v hv hd
    rw [List.nil_append]
    exact List.mem_filter.mpr ⟨hv, by simpa using hd⟩
  · intro v hv
    exact absurd hv (by simp)
  · intro v hv
    exact absurd hv (by simp)
  · intro v hv
    exact absurd hv (by simp)

lemma kahnMeasure_init_le {adj : String → List String} {verts : List String}
    {deg : String → Int} (hvn : verts.Nodup)
    (hdeg : ∀ v, deg v = ((verts.map (fun u => (adj u).count v)).sum : Int))
    (hclose : ∀ u w, w ∈ adj u → u ∈ verts ∧ w ∈ verts) :
    kahnMeasure verts ⟨verts.filter (fun v => decide (deg v = 0)), [], deg⟩ ≤
      verts.length + (verts.map (fun u => (adj u).length)).sum := by
  show (verts.filter (fun v => decide (deg v = 0))).length +
      (verts.map (fun v => (deg v).toNat)).sum ≤ _
  have h1 : (verts.filter (fun v => decide (deg v = 0))).length ≤ verts.length :=
    List.length_filter_le _ _
  have h2 : (verts.map (fun v => (deg v).toNat)).sum =
      (verts.map (fun v => (verts.map (fun u => (adj u).count v)).sum)).sum := by
    congr 1
    refine List.map_congr_left ?_
    intro v _
    rw [hdeg v]
    exact Int.toNat_natCast _
  have h3 : (verts.map (fun v => (verts.map (fun u => (adj u).count v)).sum)).sum =
      (verts.map (fun u => (verts.map (fun v => (adj u).count v)).sum)).sum :=
    sum_sum_comm verts verts (fun u v => (adj u).count v)
  have h4 : (verts.map (fun u => (verts.map (fun v => (adj u).count v)).sum)).sum =
      (verts.map (fun u => (adj u).length)).sum := by
    congr 1
    refine List.map_congr_left ?_
    intro u _
    exact sum_count_eq_length hvn (fun w hw => (hclose u w hw).2)
  omega

lemma cycle_of_succ {E : String → String → Prop} {S : List String}
    (hS : S ≠ []) (hstep : ∀ v ∈ S, ∃ u ∈ S, E u v) :
    ∃ v, Relation.TransGen E v v := by
  have hpred : ∀ v, ∃ u, v ∈ S → u ∈ S ∧ E u v := by
    intro v
    by_cases hv : v ∈ S
    · obtain ⟨u, hu, he⟩ := hstep v hv
      exact ⟨u, fun _ => ⟨hu, he⟩⟩
    · exact ⟨"", fun h => absurd h hv⟩
  choose g hg using hpred
  obtain ⟨v₀, hv₀⟩ := List.exists_mem_of_ne_nil S hS
  have hfS : ∀ n : Nat, g^[n] v₀ ∈ S := by
    intro n
    induction n with
    | zero => simpa using hv₀
    | succ n ih =>
      rw [Function.iterate_succ_apply']
      exact (hg _ ih).1
  have hfE : ∀ n : Nat, E (g^[n + 1] v₀) (g^[n] v₀) := by
    intro n
    rw [Function.iterate_succ_apply']
    exact (hg _ (hfS n)).2
  have hchain : ∀ (i k : Nat), 0 < k → Relation.TransGen E (g^[i + k] v₀) (g^[i] v₀) := by
    intro i k
    induction k with
    | zero => intro h; exact absurd h (by omega)
    | succ k ih =>
      intro _
      rcases Nat.eq_zero_or_pos k with hk | hk
      · subst hk
        exact Relation.TransGen.single (hfE i)
      · have h1 : Relation.TransGen E (g^[i + k + 1] v₀) (g^[i + k] v₀) :=
          Relation.TransGen.single (hfE (i + k))
        exact h1.trans (ih hk)
  have hcard : Fintype.card {x // x ∈ S.toFinset} < Fintype.card (Fin (S.toFinset.card + 1)) := by
    rw [Fintype.card_coe, Fintype.card_fin]
    omega
  obtain ⟨i, j, hne, heq⟩ := Fintype.exists_ne_map_eq_of_card_lt
    (fun i : Fin (S.toFinset.card + 1) =>
      (⟨g^[i.val] v₀, List.mem_toFinset.mpr (hfS i.val)⟩ : {x // x ∈ S.toFinset})) hcard
  have heq' : g^[i.val] v₀ = g^[j.val] v₀ := congrArg Subtype.val heq
  have hvne : i.val ≠ j.val := fun h => hne (Fin.ext h)
  rcases Nat.lt_or_ge i.val j.val with hij | hij
  · refine ⟨g^[i.val] v₀, ?_⟩
    have := hchain i.val (j.val - i.val) (by omega)
    rw [show i.val + (j.val - i.val) = j.val by omega, ← heq'] at this
    exact this
  · have hij' : j.val < i.val := by omega
    refine ⟨g^[j.val] v₀, ?_⟩
    have := hchain j.val (i.val - j.val) (by omega)
    rw [show j.val + (i.val - j.val) = i.val by omega, heq'] at this
    exact this



lemma kahn_complete {adj : String → List String} {verts : List String}
    (hvn : verts.Nodup) {st : KState}
    (hok : KahnOK adj verts st) (hq : st.queue = [])
    (hacyc : ∀ v, ¬ Relation.TransGen (fun u w : String => w ∈ adj u) v v) :
    ∀ v ∈ verts, v ∈ st.order := by
  by_contra hcon
  push_neg at hcon
  obtain ⟨v₁, hv₁, hv₁o⟩ := hcon
  have hSmem : ∀ w, w ∈ verts.filter (fun v => decide (v ∉ st.order)) ↔
      w ∈ verts ∧ w ∉ st.order := by
    intro w
    rw [List.mem_filter]
    simp
  have hS : verts.filter (fun v => decide (v ∉ st.order)) ≠ [] := by
    intro h
    have : v₁ ∈ verts.filter (fun v => decide (v ∉ st.order)) := (hSmem v₁).mpr ⟨hv₁, hv₁o⟩
    rw [h] at this
    exact absurd this (by simp)
  have ho_nodup : st.order.Nodup := by
    have := hok.nodup
    rw [hq, List.append_nil] at this
    exact this
  have ho_sub : ∀ x ∈ st.order, x ∈ verts := fun x hx =>
    hok.mem_vert x (by rw [hq, List.append_nil]; exact hx)
  have hstep : ∀ w ∈ verts.filter (fun v => decide (v ∉ st.order)),
      ∃ u ∈ verts.filter (fun v => decide (v ∉ st.order)), w ∈ adj u := by
    intro w hw
    obtain ⟨hwv, hwo⟩ := (hSmem w).mp hw
    have hdw : st.deg w ≠ 0 := by
      intro h0
      have := hok.zero_seen w hwv h0
      rw [hq, List.append_nil] at this
      exact hwo this
    have hT := hok.deg_acc w hwv
    have hne : (verts.map (fun u => (adj u).count w)).sum ≠
        (st.order.map (fun u => (adj u).count w)).sum := by
      intro he
      apply hdw
      omega
    obtain ⟨u, huv, huo, hpos⟩ := exists_fresh_pos hvn ho_nodup ho_sub _ hne
    exact ⟨u, (hSmem u).mpr ⟨huv, huo⟩, List.count_pos_iff_mem.mp hpos⟩
  obtain ⟨v, hcyc⟩ := cycle_of_succ hS hstep
  exact hacyc v hcyc

lemma kahn_final_deg_zero {adj : String → List String} {verts : List String}
    (hvn : verts.Nodup) {st : KState}
    (hok : KahnOK adj verts st) (hq : st.queue = [])
    (hcomp : ∀ v ∈ verts, v ∈ st.order) :
    ∀ v ∈ verts, st.deg v = 0 := by
  intro v hv
  have ho_nodup : st.order.Nodup := by
    have := hok.nodup
    rw [hq, List.append_nil] at this
    exact this
  have ho_sub : ∀ x ∈ st.order, x ∈ verts := fun x hx =>
    hok.mem_vert x (by rw [hq, List.append_nil]; exact hx)
  have h1 := sum_le_of_subset ho_nodup ho_sub (fun u => (adj u).count v)
  have h2 := sum_le_of_subset hvn hcomp (fun u => (adj u).count v)
  have := hok.deg_acc v hv
  omega

lemma q0_nonempty {adj : String → List String} {verts : List String} {deg : String → Int}
    (hdeg : ∀ v, deg v = ((verts.map (fun u => (adj u).count v)).sum : Int))
    (hacyc : ∀ v, ¬ Relation.TransGen (fun u w : String => w ∈ adj u) v v)
    (hne : verts ≠ []) :
    verts.filter (fun v => decide (deg v = 0)) ≠ [] := by
  intro hfil
  have hall : ∀ v ∈ verts, deg v ≠ 0 := by
    intro v hv hdv
    have : v ∈ verts.filter (fun v => decide (deg v = 0)) :=
      List.mem_filter.mpr ⟨hv, by simpa using hdv⟩
    rw [hfil] at this
    exact absurd this (by simp)
  have hstep : ∀ v ∈ verts, ∃ u ∈ verts, v ∈ adj u := by
    intro v hv
    have h1 : (verts.map (fun u => (adj u).count v)).sum ≠ 0 := by
      intro h0
      apply hall v hv
      rw [hdeg v, h0]
      simp
    have h2 : ∃ n ∈ verts.map (fun u => (adj u).count v), n ≠ 0 := by
      by_contra hc
      push_neg at hc
      exact h1 (List.sum_eq_zero hc)
    obtain ⟨n, hn, hnne⟩ := h2
    obtain ⟨u, hu, rfl⟩ := List.mem_map.mp hn
    exact ⟨u, hu, List.count_pos_iff_mem.mp (Nat.pos_of_ne_zero hnne)⟩
  obtain ⟨v, hcyc⟩ := cycle_of_succ hne hstep
  exact hacyc v hcyc



/-- C2: for descriptors (each producing at least one binary package) whose
induced dependency graph — binary-package or dependency name as vertex,
one edge from each declared dependency to each package the declaring
descriptor produces — is acyclic, `detect_cycle` returns a duplicate-free
order containing every vertex in which, for every edge, the dependency's
position is strictly less than the dependent's position. -/
theorem detect_cycle_topological (descs : List Desc)
    (hpk : ∀ d ∈ descs, d.packages ≠ [])
    (hacyc : AcyclicDeps descs) :
    ∃ order, detect_cycle descs = .ok (some order) ∧ order.Nodup ∧
      (∀ v, VertOf descs v → v ∈ order) ∧
      (∀ u v, EdgeOf descs u v → order.indexOf u < order.indexOf v) := by
  by_cases hne : descs = []
  · subst hne
    refine ⟨[], rfl, List.nodup_nil, ?_, ?_⟩
    · rintro v ⟨d, hd, _⟩
      exact absurd hd (by simp)
    · rintro u v ⟨d, hd, _⟩
      exact absurd hd (by simp)
  · have hok := buildGraph_ok descs
    have hvn := hok.nodup
    have hclose : ∀ u w, w ∈ (buildGraph descs).adj u →
        u ∈ (buildGraph descs).verts ∧ w ∈ (buildGraph descs).verts :=
      fun u w hw => ⟨adj_src_vert hok hw, adj_target_vert hok hw⟩
    have hEtrans : ∀ u w, w ∈ (buildGraph descs).adj u → EdgeOf descs u w :=
      fun u w hw => (adj_mem_iff hok).mp hw
    have hacyc' : ∀ v, ¬ Relation.TransGen
        (fun u w : String => w ∈ (buildGraph descs).adj u) v v := by
      intro v hv
      exact hacyc v (Relation.TransGen.mono hEtrans hv)
    have hvne : (buildGraph descs).verts ≠ [] := by
      obtain ⟨d, hd⟩ := List.exists_mem_of_ne_nil descs hne
      obtain ⟨b, hb⟩ := List.exists_mem_of_ne_nil d.packages (hpk d hd)
      intro h0
      have : b ∈ (buildGraph descs).verts := (hok.vert_iff b).mpr (Or.inl ⟨d, hd, hb⟩)
      rw [h0] at this
      exact absurd this (by simp)
    have hq0ne : (buildGraph descs).verts.filter
        (fun v => decide ((buildGraph descs).deg v = 0)) ≠ [] :=
      q0_nonempty hok.deg_eq hacyc' hvne
    have hinitq : kahnInitQueue (buildGraph descs) = some
        ((buildGraph descs).verts.filter (fun v => decide ((buildGraph descs).deg v = 0))) := by
      show (if ((buildGraph descs).verts.filter
            (fun v => decide ((buildGraph descs).deg v = 0))).isEmpty then
          (match (buildGraph descs).verts with
            | [] => none
            | v :: vs => some [minKey (buildGraph descs).deg v vs])
        else some ((buildGraph descs).verts.filter
          (fun v => decide ((buildGraph descs).deg v = 0)))) = _
      rw [if_neg (by simpa using hq0ne)]
    have hok0 : KahnOK (buildGraph descs).adj (buildGraph descs).verts
        ⟨(buildGraph descs).verts.filter (fun v => decide ((buildGraph descs).deg v = 0)),
          [], (buildGraph descs).deg⟩ :=
      kahnOK_init hvn hok.deg_eq
    have hfuel : kahnMeasure (buildGraph descs).verts
        ⟨(buildGraph descs).verts.filter (fun v => decide ((buildGraph descs).deg v = 0)),
          [], (buildGraph descs).deg⟩ ≤
        (buildGraph descs).verts.length + numEdges descs := by
      have h := kahnMeasure_init_le hvn hok.deg_eq hclose
      rw [hok.len_sum] at h
      rw [numEdges_eq_length]
      exact h
    obtain ⟨hokF, hqF⟩ := kahnLoop_ok hvn hclose
      ((buildGraph descs).verts.length + numEdges descs + 1)
      ⟨(buildGraph descs).verts.filter (fun v => decide ((buildGraph descs).deg v = 0)),
        [], (buildGraph descs).deg⟩ hok0 (by omega)
    have hkf : kahnFinal descs = some (kahnLoop (buildGraph descs).adj
        ((buildGraph descs).verts.length + numEdges descs + 1)
        ⟨(buildGraph descs).verts.filter (fun v => decide ((buildGraph descs).deg v = 0)),
          [], (buildGraph descs).deg⟩) := by
      show ((kahnInitQueue (buildGraph descs)).map (fun q =>
        kahnLoop (buildGraph descs).adj
          ((buildGraph descs).verts.length + numEdges descs + 1)
          ⟨q, [], (buildGraph descs).deg⟩)) = _
      rw [hinitq]
      rfl
    have hcomp := kahn_complete hvn hokF hqF hacyc'
    have hdeg0 := kahn_final_deg_zero hvn hokF hqF hcomp
    have hfilter : ((buildGraph descs).verts.filter (fun v =>
        decide (0 < (kahnLoop (buildGraph descs).adj
          ((buildGraph descs).verts.length + numEdges descs + 1)
          ⟨(buildGraph descs).verts.filter (fun v => decide ((buildGraph descs).deg v = 0)),
            [], (buildGraph descs).deg⟩).deg v))) = [] := by
      rw [List.filter_eq_nil]
      intro v hv
      have h0 := hdeg0 v hv
      simp [h0]
    have hdc : detect_cycle descs = .ok (some (kahnLoop (buildGraph descs).adj
        ((buildGraph descs).verts.length + numEdges descs + 1)
        ⟨(buildGraph descs).verts.filter (fun v => decide ((buildGraph descs).deg v = 0)),
          [], (buildGraph descs).deg⟩).order) := by
      have hisE : ¬ (descs.isEmpty = true) := by
        cases descs with
        | nil => exact absurd rfl hne
        | cons a l => simp
      unfold detect_cycle
      rw [if_neg hisE, hkf]
      show (if ((buildGraph descs).verts.filter (fun v =>
          decide (0 < (kahnLoop (buildGraph descs).adj
            ((buildGraph descs).verts.length + numEdges descs + 1)
            ⟨(buildGraph descs).verts.filter (fun v =>
              decide ((buildGraph descs).deg v = 0)),
              [], (buildGraph descs).deg⟩).deg v))).isEmpty then _ else _) = _
      rw [hfilter]
      rfl
    refine ⟨_, hdc, ?_, ?_, ?_⟩
    · have := hokF.nodup
      rw [hqF, List.append_nil] at this
      exact this
    · intro v hv
      exact hcomp v ((vert_iff_VertOf hok hpk).mpr hv)
    · intro u v huv
      have hvadj : v ∈ (buildGraph descs).adj u := (adj_mem_iff hok).mpr huv
      have hvv : v ∈ (buildGraph descs).verts := adj_target_vert hok hvadj
      exact (hokF.order_pos v (hcomp v hvv) u hvadj).2



lemma edge_shape_w : ∀ u v, EdgeOf [⟨"A", ["x"], []⟩, ⟨"B", ["y"], ["x"]⟩] u v →
    u = "x" ∧ v = "y" := by
  rintro u v ⟨d, hd, hu, hv⟩
  rcases List.mem_cons.mp hd with rfl | hd'
  · exact absurd hu (by simp)
  · rcases List.mem_cons.mp hd' with rfl | hd''
    · exact ⟨by simpa using hu, by simpa using hv⟩
    · exact absurd hd'' (by simp)

lemma acyclic_w : AcyclicDeps [⟨"A", ["x"], []⟩, ⟨"B", ["y"], ["x"]⟩] := by
  have htg : ∀ a b, Relation.TransGen
      (EdgeOf [⟨"A", ["x"], []⟩, ⟨"B", ["y"], ["x"]⟩]) a b → a = "x" ∧ b = "y" := by
    intro a b h
    induction h with
    | single h' => exact edge_shape_w _ _ h'
    | tail hab hbc ih =>
      have h1 := ih.2
      have h2 := (edge_shape_w _ _ hbc).1
      rw [h1] at h2
      exact absurd h2 (by decide)
  intro v hv
  obtain ⟨h1, h2⟩ := htg v v hv
  rw [h1] at h2
  exact absurd h2 (by decide)

/-- C2 witness: descriptor A produces x with no dependencies, B produces
y depending on x; the hypotheses hold and a topological order exists. -/
theorem detect_cycle_topological_witness :
    (∀ d ∈ ([⟨"A", ["x"], []⟩, ⟨"B", ["y"], ["x"]⟩] : List Desc), d.packages ≠ []) ∧
    AcyclicDeps [⟨"A", ["x"], []⟩, ⟨"B", ["y"], ["x"]⟩] ∧
    ∃ order, detect_cycle [⟨"A", ["x"], []⟩, ⟨"B", ["y"], ["x"]⟩] = .ok (some order) ∧
      order.Nodup ∧
      (∀ v, VertOf [⟨"A", ["x"], []⟩, ⟨"B", ["y"], ["x"]⟩] v → v ∈ order) ∧
      (∀ u v, EdgeOf [⟨"A", ["x"], []⟩, ⟨"B", ["y"], ["x"]⟩] u v →
        order.indexOf u < order.indexOf v) :=
  ⟨by decide, acyclic_w,
    detect_cycle_topological [⟨"A", ["x"], []⟩, ⟨"B", ["y"], ["x"]⟩] (by decide) acyclic_w⟩

end QBU
